import Mathlib

/-!
# GrayscaleViewer (script.js): level table and pixel quantizer

A shallow embedding of the numeric core of `src/script.js`:
`calculateGrayValue`, the swatch loop of `updateGradientBar`, `changeLevel` and
the pixel loop of `processImage`.

JavaScript numbers are IEEE-754 binary64 values.  A finite number is modelled by
the rational it denotes; every arithmetic operation computes the exact rational
result and rounds it to the nearest binary64 value, ties to even (`roundQ`,
`toDouble`), exactly as IEEE-754 prescribes for `+ - * /`.  The sign of zero is
not represented: no operation on the modelled paths observes it.

`Math.pow` follows the case list of ECMAScript `Number::exponentiate`; its last
case (finite non-zero base, finite non-zero exponent) is left by ECMAScript to
the engine ("implementation-approximated"), and is a parameter `E` of the model.
-/

namespace GrayscaleViewer

/-! ## JavaScript numbers -/

/-- A JavaScript Number: NaN, the two infinities, or a finite value. -/
inductive Number where
  | nan : Number
  | posInf : Number
  | negInf : Number
  | fin (q : ℚ) : Number
deriving DecidableEq

/-- Round to the nearest integer, ties to the even one. -/
def rne (q : ℚ) : ℤ :=
  if Int.fract q < 1 / 2 then ⌊q⌋
  else if 1 / 2 < Int.fract q then ⌊q⌋ + 1
  else if ⌊q⌋ % 2 = 0 then ⌊q⌋ else ⌊q⌋ + 1

/-- The unit in the last place used for a non-zero rational `q`: `2 ^ (e - 52)`
where `2 ^ e ≤ |q| < 2 ^ (e + 1)`, with `e` no smaller than `-1022`
(below that the binary64 format is subnormal and the spacing is `2 ^ (-1074)`). -/
def ulp (q : ℚ) : ℚ := (2 : ℚ) ^ (max (Int.log 2 |q|) (-1022) - 52)

/-- Round a rational to the binary64 grid (53-bit significand, ties to even),
before the overflow check. -/
def roundQ (q : ℚ) : ℚ :=
  if q = 0 then 0 else (rne (q / ulp q) : ℚ) * ulp q

/-- The binary64 value of an exact result: `roundQ`, overflowing to an infinity
when the rounded magnitude reaches `2 ^ 1024`. -/
def toDouble (q : ℚ) : Number :=
  if (2 : ℚ) ^ 1024 ≤ roundQ q then Number.posInf
  else if roundQ q ≤ -(2 : ℚ) ^ 1024 then Number.negInf
  else Number.fin (roundQ q)

namespace Number

/-- Whether the value is strictly negative. -/
def isNeg : Number → Bool
  | negInf => true
  | fin q => decide (q < 0)
  | _ => false

/-- The infinity with the given sign. -/
def inf (neg : Bool) : Number := if neg then negInf else posInf

/-- JavaScript `a * b`. -/
def mul : Number → Number → Number
  | nan, _ => nan
  | _, nan => nan
  | fin a, fin b => toDouble (a * b)
  | a, b => if a = fin 0 ∨ b = fin 0 then nan else inf (a.isNeg != b.isNeg)

/-- JavaScript `a / b`. -/
def div : Number → Number → Number
  | nan, _ => nan
  | _, nan => nan
  | fin a, fin b =>
    if b = 0 then (if a = 0 then nan else inf (decide (a < 0)))
    else toDouble (a / b)
  | fin _, _ => fin 0
  | a, fin b => inf (a.isNeg != decide (b < 0))
  | _, _ => nan

/-- JavaScript `a + b`. -/
def add : Number → Number → Number
  | nan, _ => nan
  | _, nan => nan
  | fin a, fin b => toDouble (a + b)
  | posInf, negInf => nan
  | negInf, posInf => nan
  | posInf, _ => posInf
  | _, posInf => posInf
  | _, _ => negInf

/-- JavaScript unary minus. -/
def neg : Number → Number
  | nan => nan
  | posInf => negInf
  | negInf => posInf
  | fin a => fin (-a)

/-- JavaScript `a - b`. -/
def sub (a b : Number) : Number := a.add b.neg

/-- JavaScript `a <= b`: false as soon as one side is NaN. -/
def le : Number → Number → Bool
  | nan, _ => false
  | _, nan => false
  | negInf, _ => true
  | _, posInf => true
  | fin a, fin b => decide (a ≤ b)
  | _, _ => false

/-- The number denoted by a natural-number literal or array index. -/
def ofNat (n : ℕ) : Number := fin (n : ℚ)

end Number

/-- `Math.round`: the nearest integer, halves towards `+∞`. -/
def mathRound : Number → Number
  | Number.fin q => Number.fin (⌊q + 1 / 2⌋ : ℤ)
  | x => x

/-- `Math.floor`. -/
def mathFloor : Number → Number
  | Number.fin q => Number.fin (⌊q⌋ : ℤ)
  | x => x

/-- Whether a rational is an odd integer. -/
def isOddInteger (q : ℚ) : Bool := decide (q.den = 1 ∧ q.num % 2 = 1)

/-- `Math.pow(base, exponent)`, following ECMAScript `Number::exponentiate`.
`E b p` is the engine's approximation of `b ^ p` for a finite non-zero base and
a finite non-zero exponent. -/
def mathPow (E : ℚ → ℚ → Number) (base exponent : Number) : Number :=
  if exponent = Number.nan then Number.nan
  else if exponent = Number.fin 0 then Number.fin 1
  else
    match base with
    | Number.nan => Number.nan
    | Number.posInf => if exponent.isNeg then Number.fin 0 else Number.posInf
    | Number.negInf =>
      if exponent.isNeg then Number.fin 0
      else match exponent with
        | Number.fin p => if isOddInteger p then Number.negInf else Number.posInf
        | _ => Number.posInf
    | Number.fin b =>
      if b = 0 then (if exponent.isNeg then Number.posInf else Number.fin 0)
      else match exponent with
        | Number.posInf =>
          if 1 < |b| then Number.posInf else if |b| = 1 then Number.nan else Number.fin 0
        | Number.negInf =>
          if 1 < |b| then Number.fin 0 else if |b| = 1 then Number.nan else Number.posInf
        | Number.fin p => if b < 0 ∧ p.den ≠ 1 then Number.nan else E b p
        | Number.nan => Number.nan

/-! ## calculateGrayValue -/

/-- What `calculateGrayValue` returns: a number (mode `'gray'`), a three-element
array, or, when the mode names a property that the object literal `colors`
inherits from `Object.prototype`, that inherited member. -/
inductive Value where
  | num (v : Number) : Value
  | arr (r g b : Number) : Value
  | inherited (key : String) : Value
deriving DecidableEq

/-- The property names every object literal inherits from `Object.prototype`
(ECMAScript 20.1.3 and Annex B.2.2); each holds a function or an object, so each
is truthy. -/
def objectPrototypeKeys : List String :=
  ["constructor", "hasOwnProperty", "isPrototypeOf", "propertyIsEnumerable",
   "toLocaleString", "toString", "valueOf", "__proto__", "__defineGetter__",
   "__defineSetter__", "__lookupGetter__", "__lookupSetter__"]

/-- The property key under which `colors[this.currentColor]` looks:
`undefined` (the mode before the constructor assigns it) becomes the string
`"undefined"`. -/
def propertyKey : Option String → String
  | none => "undefined"
  | some s => s

/-- The lookup `colors[this.currentColor]` on the literal
`{red: [value,0,0], green: [0,value,0], blue: [0,0,value]}`:
`none` is `undefined`. -/
def colorsLookup (value : Number) (currentColor : Option String) : Option Value :=
  let key := propertyKey currentColor
  if key = "red" then some (Value.arr value (Number.fin 0) (Number.fin 0))
  else if key = "green" then some (Value.arr (Number.fin 0) value (Number.fin 0))
  else if key = "blue" then some (Value.arr (Number.fin 0) (Number.fin 0) value)
  else if key ∈ objectPrototypeKeys then some (Value.inherited key)
  else none

/-- The intensity computed by lines 119-122 of `calculateGrayValue`;
`distribution` is the number `Number(distribution)`. -/
def intensity (E : ℚ → ℚ → Number) (i level distribution : Number) : Number :=
  let x := i.div (level.sub (Number.fin 1))
  let power := mathPow E (Number.fin 2) distribution
  let value := (mathPow E x power).mul (Number.fin 255)
  mathRound value

/-- The method `calculateGrayValue(i, level, distribution)` with the field
`this.currentColor` as an explicit argument. -/
def calculateGrayValue (E : ℚ → ℚ → Number) (currentColor : Option String)
    (i level distribution : Number) : Value :=
  let value := intensity E i level distribution
  if currentColor = some "gray" then Value.num value
  else
    match colorsLookup value currentColor with
    | some c => c
    | none => Value.arr value value value


/-- The reference engine used to instantiate the statements below: it returns
the base itself at exponent 1, the correctly rounded exact power at every other
integral exponent, and NaN at a non-integral exponent, where the exact power is
in general irrational and engines may differ in the last place. -/
def integralPow (b p : ℚ) : Number :=
  if p = 1 then Number.fin b
  else if p.den = 1 then toDouble (b ^ p.num)
  else Number.nan

/-! ## updateGradientBar -/

/-- The three colour components `updateGradientBar` interpolates into
`rgb(…,…,…)`: the array's elements when `Array.isArray(value)`, otherwise the
value three times. -/
def swatch : Value → Value × Value × Value
  | Value.arr r g b => (Value.num r, Value.num g, Value.num b)
  | v => (v, v, v)

/-- The loop `for (let i = 0; i < level; i++)` of `updateGradientBar`: the
colour of each swatch appended to the gradient bar, in order. -/
def updateGradientBar (E : ℚ → ℚ → Number) (currentColor : Option String)
    (level : ℕ) (distribution : Number) : List (Value × Value × Value) :=
  (List.range level).map fun i =>
    swatch (calculateGrayValue E currentColor (Number.ofNat i) (Number.ofNat level)
      distribution)

/-! ## changeLevel -/

/-- The fields of the viewer that level navigation reads and writes. -/
structure LevelState where
  levels : List ℕ
  currentLevelIndex : ℤ
deriving DecidableEq

/-- The state set up by the constructor (lines 3-4). -/
def constructorState : LevelState :=
  { levels := [5, 10, 15, 20, 25], currentLevelIndex := 1 }

/-- The assignment of `changeLevel(direction)` (line 158):
`Math.min(Math.max(0, currentLevelIndex + direction), levels.length - 1)`. -/
def changeLevel (s : LevelState) (direction : ℤ) : LevelState :=
  { s with
    currentLevelIndex :=
      min (max 0 (s.currentLevelIndex + direction)) ((s.levels.length : ℤ) - 1) }

/-- The state after a sequence of `changeLevel` calls, first call first. -/
def changeLevels (s : LevelState) (directions : List ℤ) : LevelState :=
  directions.foldl changeLevel s

/-- The value of `this.levels[this.currentLevelIndex]`; `none` is `undefined`. -/
def currentLevel (s : LevelState) : Option ℕ :=
  if 0 ≤ s.currentLevelIndex then s.levels[s.currentLevelIndex.toNat]? else none

/-! ## processImage -/

/-- The element `data[i]` of the `Uint8ClampedArray` as a number; an index
past the end reads `undefined`, which arithmetic turns into NaN. -/
def readByte (data : List ℕ) (i : ℕ) : Number :=
  match data[i]? with
  | some v => Number.ofNat v
  | none => Number.nan

/-- The conversion a `Uint8ClampedArray` applies to a stored number
(ECMAScript `ToUint8Clamp`): NaN becomes 0, the value is clamped to `[0, 255]`
and rounded to the nearest integer, ties to even. -/
def toUint8Clamp : Number → ℕ
  | Number.nan => 0
  | Number.posInf => 255
  | Number.negInf => 0
  | Number.fin q => if q ≤ 0 then 0 else if 255 ≤ q then 255 else (rne q).toNat

/-- The byte stored for one component: a non-numeric object converts to NaN,
hence to 0. -/
def storedByte : Value → ℕ
  | Value.num v => toUint8Clamp v
  | _ => 0

/-- Line 190: `data[i] * 0.299 + data[i + 1] * 0.587 + data[i + 2] * 0.114`,
each decimal literal being the nearest binary64 value. -/
def luminance (r g b : Number) : Number :=
  ((r.mul (toDouble (299 / 1000))).add (g.mul (toDouble (587 / 1000)))).add
    (b.mul (toDouble (114 / 1000)))

/-- Lines 190-192: the table index computed for a pixel. -/
def quantIndex (level r g b : Number) : Number :=
  let gray := luminance r g b
  let normalizedGray := gray.div (Number.fin 255)
  mathFloor (normalizedGray.mul (level.sub (Number.fin 1)))

/-- The three bytes lines 195-201 store for a returned value: the array's
elements when `Array.isArray(value)`, otherwise the value itself three times. -/
def storedBytes : Value → ℕ × ℕ × ℕ
  | Value.arr r g b => (toUint8Clamp r, toUint8Clamp g, toUint8Clamp b)
  | v => (storedByte v, storedByte v, storedByte v)

/-- The colour written for a pixel whose channels read `r`, `g`, `b`. -/
def pixelColour (E : ℚ → ℚ → Number) (currentColor : Option String)
    (level distribution : Number) (r g b : Number) : ℕ × ℕ × ℕ :=
  storedBytes (calculateGrayValue E currentColor (quantIndex level r g b) level distribution)

/-- One iteration of the pixel loop (lines 190-201) at offset `i`; a store past
the end of the typed array is ignored, as `List.set` does. -/
def pixelStep (E : ℚ → ℚ → Number) (currentColor : Option String)
    (level distribution : Number) (data : List ℕ) (i : ℕ) : List ℕ :=
  let c := pixelColour E currentColor level distribution
    (readByte data i) (readByte data (i + 1)) (readByte data (i + 2))
  ((data.set i c.1).set (i + 1) c.2.1).set (i + 2) c.2.2

/-- The loop `for (let i = 0; i < data.length; i += 4)` from offset `i` on. -/
def pixelLoop (E : ℚ → ℚ → Number) (currentColor : Option String)
    (level distribution : Number) (data : List ℕ) (i : ℕ) : List ℕ :=
  if i < data.length then
    pixelLoop E currentColor level distribution
      (pixelStep E currentColor level distribution data i) (i + 4)
  else data
termination_by data.length - i
decreasing_by
  simp only [pixelStep, List.length_set]
  omega

/-- The pixel part of `processImage` (lines 183-205) on the buffer returned by
`getImageData`: the loop when `isGrayscale`, the buffer untouched otherwise. -/
def processImage (E : ℚ → ℚ → Number) (currentColor : Option String)
    (isGrayscale : Bool) (level distribution : Number) (data : List ℕ) : List ℕ :=
  if isGrayscale then pixelLoop E currentColor level distribution data 0 else data

/-- What the loop has done to pixel `k` of the buffer `orig`: alpha kept, the
colour bytes replaced by the colour computed from the pixel's own channels. -/
def PixelDone (E : ℚ → ℚ → Number) (currentColor : Option String)
    (level distribution : Number) (orig data : List ℕ) (k : ℕ) : Prop :=
  data[4 * k + 3]? = orig[4 * k + 3]? ∧
    data[4 * k]? = some (pixelColour E currentColor level distribution
      (readByte orig (4 * k)) (readByte orig (4 * k + 1)) (readByte orig (4 * k + 2))).1 ∧
    data[4 * k + 1]? = some (pixelColour E currentColor level distribution
      (readByte orig (4 * k)) (readByte orig (4 * k + 1)) (readByte orig (4 * k + 2))).2.1 ∧
    data[4 * k + 2]? = some (pixelColour E currentColor level distribution
      (readByte orig (4 * k)) (readByte orig (4 * k + 1)) (readByte orig (4 * k + 2))).2.2

/-! ## Rounding lemmas -/

theorem floor_le_rne (q : ℚ) : ⌊q⌋ ≤ rne q := by
  unfold rne; split_ifs <;> omega

theorem rne_le_floor_add_one (q : ℚ) : rne q ≤ ⌊q⌋ + 1 := by
  unfold rne; split_ifs <;> omega

theorem rne_intCast (n : ℤ) : rne (n : ℚ) = n := by
  simp [rne]

theorem rne_mono {a b : ℚ} (h : a ≤ b) : rne a ≤ rne b := by
  rcases (Int.floor_mono h).lt_or_eq with hlt | heq
  · calc rne a ≤ ⌊a⌋ + 1 := rne_le_floor_add_one a
      _ ≤ ⌊b⌋ := hlt
      _ ≤ rne b := floor_le_rne b
  · have hf : Int.fract a ≤ Int.fract b := by
      unfold Int.fract; rw [heq]; linarith
    unfold rne; rw [heq]
    split_ifs <;> first | omega | linarith

theorem rne_nonneg {q : ℚ} (h : 0 ≤ q) : 0 ≤ rne q := by
  have := rne_mono h
  rwa [show (0 : ℚ) = ((0 : ℤ) : ℚ) by simp, rne_intCast] at this

theorem ulp_pos (q : ℚ) : 0 < ulp q := by
  unfold ulp; positivity

theorem zpow_log_le {q : ℚ} (hq : 0 < q) : (2 : ℚ) ^ Int.log 2 q ≤ q := by
  have := Int.zpow_log_le_self (b := 2) (r := q) (by norm_num) hq
  simpa using this

theorem lt_zpow_log_succ (q : ℚ) : q < (2 : ℚ) ^ (Int.log 2 q + 1) := by
  have := Int.lt_zpow_succ_log_self (b := 2) (by norm_num) q
  simpa using this

theorem intpow_mul_zpow (k : ℕ) (d : ℤ) :
    (((2 : ℤ) ^ k : ℤ) : ℚ) * (2 : ℚ) ^ d = (2 : ℚ) ^ (d + k) := by
  rw [Int.cast_pow, Int.cast_ofNat, ← zpow_natCast, ← zpow_add₀ (by norm_num)]
  congr 1; ring

theorem roundQ_nonneg {q : ℚ} (h : 0 ≤ q) : 0 ≤ roundQ q := by
  unfold roundQ
  split_ifs
  · exact le_refl 0
  · have h1 : 0 ≤ rne (q / ulp q) := rne_nonneg (div_nonneg h (ulp_pos q).le)
    have h2 : (0 : ℚ) ≤ (rne (q / ulp q) : ℚ) := by exact_mod_cast h1
    exact mul_nonneg h2 (ulp_pos q).le

/-- A positive rational rounds to at most the next power of two. -/
theorem roundQ_le_zpow {q : ℚ} (hq : 0 < q) :
    roundQ q ≤ (2 : ℚ) ^ (max (Int.log 2 q) (-1022) + 1) := by
  unfold roundQ
  rw [if_neg hq.ne']
  have hu : ulp q = (2 : ℚ) ^ (max (Int.log 2 q) (-1022) - 52) := by
    unfold ulp; rw [abs_of_pos hq]
  set e := max (Int.log 2 q) (-1022) with he
  have h1 : q < (2 : ℚ) ^ (e + 1) :=
    lt_of_lt_of_le (lt_zpow_log_succ q)
      (zpow_le_zpow_right₀ (by norm_num) (by omega))
  have h2 : q / ulp q ≤ (((2 : ℤ) ^ 53 : ℤ) : ℚ) := by
    rw [div_le_iff₀ (ulp_pos q), hu]
    have : (((2 : ℤ) ^ 53 : ℤ) : ℚ) * (2 : ℚ) ^ (e - 52) = (2 : ℚ) ^ (e + 1) := by
      rw [intpow_mul_zpow]; congr 1; push_cast; ring
    rw [this]; exact h1.le
  have h3 := rne_mono h2
  rw [rne_intCast] at h3
  have h4 : (rne (q / ulp q) : ℚ) ≤ (((2 : ℤ) ^ 53 : ℤ) : ℚ) := by exact_mod_cast h3
  calc (rne (q / ulp q) : ℚ) * ulp q ≤ (((2 : ℤ) ^ 53 : ℤ) : ℚ) * ulp q :=
        mul_le_mul_of_nonneg_right h4 (ulp_pos q).le
    _ = (2 : ℚ) ^ (e + 1) := by
        rw [hu, intpow_mul_zpow]; congr 1; push_cast; ring

/-- A positive rational in the normal range rounds to at least the power of two
below it. -/
theorem zpow_le_roundQ {q : ℚ} (hq : 0 < q) (hn : -1022 ≤ Int.log 2 q) :
    (2 : ℚ) ^ Int.log 2 q ≤ roundQ q := by
  unfold roundQ
  rw [if_neg hq.ne']
  have hu : ulp q = (2 : ℚ) ^ (Int.log 2 q - 52) := by
    unfold ulp; rw [abs_of_pos hq, max_eq_left hn]
  have key : (((2 : ℤ) ^ 52 : ℤ) : ℚ) * (2 : ℚ) ^ (Int.log 2 q - 52) =
      (2 : ℚ) ^ Int.log 2 q := by
    rw [intpow_mul_zpow]; congr 1; push_cast; ring
  have h2 : (((2 : ℤ) ^ 52 : ℤ) : ℚ) ≤ q / ulp q := by
    rw [le_div_iff₀ (ulp_pos q), hu, key]
    exact zpow_log_le hq
  have h3 := rne_mono h2
  rw [rne_intCast] at h3
  have h4 : (((2 : ℤ) ^ 52 : ℤ) : ℚ) ≤ (rne (q / ulp q) : ℚ) := by exact_mod_cast h3
  calc (2 : ℚ) ^ Int.log 2 q = (((2 : ℤ) ^ 52 : ℤ) : ℚ) * ulp q := by rw [hu, key]
    _ ≤ (rne (q / ulp q) : ℚ) * ulp q := mul_le_mul_of_nonneg_right h4 (ulp_pos q).le

/-- Rounding to binary64 is monotone on the non-negative rationals. -/
theorem roundQ_mono {a b : ℚ} (ha : 0 ≤ a) (hab : a ≤ b) : roundQ a ≤ roundQ b := by
  rcases ha.eq_or_lt with h0 | hpos
  · rw [← h0]
    simpa [roundQ] using roundQ_nonneg (le_trans ha hab)
  have hb : 0 < b := lt_of_lt_of_le hpos hab
  have hlog : Int.log 2 a ≤ Int.log 2 b := Int.log_mono_right hpos hab
  rcases (max_le_max hlog (le_refl (-1022 : ℤ))).lt_or_eq with hlt | heq
  · have hbn : -1022 ≤ Int.log 2 b := by
      by_contra hcon
      push_neg at hcon
      rw [max_eq_right hcon.le] at hlt
      exact absurd (le_max_right (Int.log 2 a) (-1022)) (not_le.mpr hlt)
    rw [max_eq_left hbn] at hlt
    calc roundQ a ≤ (2 : ℚ) ^ (max (Int.log 2 a) (-1022) + 1) := roundQ_le_zpow hpos
      _ ≤ (2 : ℚ) ^ Int.log 2 b := zpow_le_zpow_right₀ (by norm_num) (by omega)
      _ ≤ roundQ b := zpow_le_roundQ hb hbn
  · have hu : ulp a = ulp b := by
      unfold ulp; rw [abs_of_pos hpos, abs_of_pos hb, heq]
    unfold roundQ
    rw [if_neg hpos.ne', if_neg hb.ne', hu]
    have h1 : a / ulp b ≤ b / ulp b := div_le_div_of_nonneg_right hab (ulp_pos b).le
    have h2 : (rne (a / ulp b) : ℚ) ≤ (rne (b / ulp b) : ℚ) := by
      exact_mod_cast rne_mono h1
    exact mul_le_mul_of_nonneg_right h2 (ulp_pos b).le


theorem rne_unique {x : ℚ} {n : ℤ} (h1 : (n : ℚ) - 1 / 2 < x) (h2 : x < n + 1 / 2) :
    rne x = n := by
  have hle : rne x ≤ n := by
    have := rne_le_floor_add_one x
    by_contra hcon
    push_neg at hcon
    -- n < rne x ≤ ⌊x⌋ + 1, so n ≤ ⌊x⌋ ≤ x
    have hfl : n ≤ ⌊x⌋ := by omega
    rcases hfl.lt_or_eq with hlt | heq
    · have : ((n : ℤ) + 1 : ℚ) ≤ x := by
        have h3 : n + 1 ≤ ⌊x⌋ := hlt
        have h4 : ((n + 1 : ℤ) : ℚ) ≤ x := Int.le_floor.mp h3
        push_cast at h4; exact h4
      linarith
    · have hfr : Int.fract x < 1 / 2 := by
        unfold Int.fract; rw [← heq]; linarith
      have : rne x = ⌊x⌋ := by unfold rne; rw [if_pos hfr]
      omega
  have hge : n ≤ rne x := by
    have := floor_le_rne x
    by_contra hcon
    push_neg at hcon
    -- ⌊x⌋ ≤ rne x < n, so ⌊x⌋ ≤ n - 1
    have hx : x < (n : ℚ) := by
      have h3 : ⌊x⌋ < n := by omega
      exact Int.floor_lt.mp h3
    have hfl : ⌊x⌋ = n - 1 := by
      have h3 : n - 1 ≤ ⌊x⌋ := by
        apply Int.le_floor.mpr; push_cast; linarith
      have h4 : ⌊x⌋ < n := Int.floor_lt.mpr hx
      omega
    have hfr : 1 / 2 < Int.fract x := by
      unfold Int.fract; rw [hfl]; push_cast; linarith
    have : rne x = ⌊x⌋ + 1 := by
      unfold rne
      rw [if_neg (by linarith), if_pos hfr]
    omega
  omega

/-- A rational `m * 2 ^ k` with a significand below `2 ^ 53` and an exponent in
the binary64 range is a binary64 value: rounding leaves it unchanged. -/
theorem roundQ_dyadic (m k : ℤ) (hm : |m| < 2 ^ 53) (hk : -1074 ≤ k) :
    roundQ ((m : ℚ) * (2 : ℚ) ^ k) = (m : ℚ) * (2 : ℚ) ^ k := by
  by_cases hm0 : m = 0
  · simp [hm0, roundQ]
  have h2k : (0 : ℚ) < (2 : ℚ) ^ k := by positivity
  have hq0 : (m : ℚ) * (2 : ℚ) ^ k ≠ 0 :=
    mul_ne_zero (by exact_mod_cast hm0) h2k.ne'
  have habs : |(m : ℚ) * (2 : ℚ) ^ k| = (|m| : ℤ) * (2 : ℚ) ^ k := by
    rw [abs_mul, abs_of_pos h2k, Int.cast_abs]
  have hpos : 0 < |(m : ℚ) * (2 : ℚ) ^ k| := abs_pos.mpr hq0
  have hlt : |(m : ℚ) * (2 : ℚ) ^ k| < (2 : ℚ) ^ (k + 53) := by
    rw [habs]
    have h1 : ((|m| : ℤ) : ℚ) < (((2 : ℤ) ^ 53 : ℤ) : ℚ) := by exact_mod_cast hm
    calc ((|m| : ℤ) : ℚ) * (2 : ℚ) ^ k < (((2 : ℤ) ^ 53 : ℤ) : ℚ) * (2 : ℚ) ^ k :=
          mul_lt_mul_of_pos_right h1 h2k
      _ = (2 : ℚ) ^ (k + 53) := by rw [intpow_mul_zpow]; congr 1
  have hlog : Int.log 2 |(m : ℚ) * (2 : ℚ) ^ k| < k + 53 := by
    have h1 := lt_of_le_of_lt (zpow_log_le hpos) hlt
    exact (zpow_lt_zpow_iff_right₀ (by norm_num : (1 : ℚ) < 2)).mp h1
  obtain ⟨d, hd⟩ : ∃ d : ℕ,
      (d : ℤ) + (max (Int.log 2 |(m : ℚ) * (2 : ℚ) ^ k|) (-1022) - 52) = k := by
    refine ⟨(k - (max (Int.log 2 |(m : ℚ) * (2 : ℚ) ^ k|) (-1022) - 52)).toNat, ?_⟩
    have : max (Int.log 2 |(m : ℚ) * (2 : ℚ) ^ k|) (-1022) - 52 ≤ k := by
      rcases max_cases (Int.log 2 |(m : ℚ) * (2 : ℚ) ^ k|) (-1022) with ⟨h, _⟩ | ⟨h, _⟩ <;>
        rw [h] <;> omega
    omega
  have hu : ulp ((m : ℚ) * (2 : ℚ) ^ k) =
      (2 : ℚ) ^ (max (Int.log 2 |(m : ℚ) * (2 : ℚ) ^ k|) (-1022) - 52) := rfl
  have hsplit : (2 : ℚ) ^ k = (((2 : ℤ) ^ d : ℤ) : ℚ) * ulp ((m : ℚ) * (2 : ℚ) ^ k) := by
    rw [hu, intpow_mul_zpow]; congr 1; omega
  have hdiv : (m : ℚ) * (2 : ℚ) ^ k / ulp ((m : ℚ) * (2 : ℚ) ^ k) =
      ((m * (2 : ℤ) ^ d : ℤ) : ℚ) := by
    rw [div_eq_iff (ulp_pos _).ne']
    nth_rewrite 1 [hsplit]
    push_cast; ring
  unfold roundQ
  rw [if_neg hq0, hdiv, rne_intCast]
  nth_rewrite 2 [hsplit]
  push_cast; ring

theorem roundQ_natCast (n : ℕ) (hn : n < 2 ^ 53) : roundQ (n : ℚ) = n := by
  have h := roundQ_dyadic (n : ℤ) 0 (by rw [abs_of_nonneg (by positivity)]; exact_mod_cast hn)
    (by norm_num)
  simpa using h

theorem toDouble_of_lt {q : ℚ} (h1 : -(2 : ℚ) ^ 1024 < roundQ q) (h2 : roundQ q < (2 : ℚ) ^ 1024) :
    toDouble q = Number.fin (roundQ q) := by
  unfold toDouble
  rw [if_neg (not_le.mpr h2), if_neg (not_le.mpr h1)]

/-- An exact result between 0 and a natural number below `2 ^ 53` rounds to a
finite number in the same range. -/
theorem toDouble_bounded {q : ℚ} {n : ℕ} (h0 : 0 ≤ q) (hq : q ≤ n) (hn : n < 2 ^ 53) :
    toDouble q = Number.fin (roundQ q) ∧ 0 ≤ roundQ q ∧ roundQ q ≤ n := by
  have hnn : 0 ≤ roundQ q := roundQ_nonneg h0
  have hle : roundQ q ≤ n := by
    have := roundQ_mono h0 hq
    rwa [roundQ_natCast n hn] at this
  have hbig : (n : ℚ) < (2 : ℚ) ^ 1024 := by
    have h1 : (n : ℚ) < (2 : ℚ) ^ 53 := by exact_mod_cast hn
    have h2 : (2 : ℚ) ^ 53 ≤ (2 : ℚ) ^ 1024 :=
      pow_le_pow_right₀ (by norm_num : (1 : ℚ) ≤ 2) (by norm_num : 53 ≤ 1024)
    linarith
  refine ⟨toDouble_of_lt ?_ ?_, hnn, hle⟩
  · have : (0 : ℚ) < (2 : ℚ) ^ 1024 := by positivity
    linarith
  · linarith

theorem toDouble_natCast (n : ℕ) (hn : n < 2 ^ 53) : toDouble (n : ℚ) = Number.fin n := by
  have h := toDouble_bounded (q := (n : ℚ)) (n := n) (by positivity) (le_refl _) hn
  rw [h.1, roundQ_natCast n hn]

theorem toDouble_zero : toDouble 0 = Number.fin 0 := by
  simpa using toDouble_natCast 0 (by norm_num)

theorem toDouble_one : toDouble 1 = Number.fin 1 := by
  simpa using toDouble_natCast 1 (by norm_num)


theorem rne_div_ulp_le {q : ℚ} (hq : 0 < q) : rne (q / ulp q) ≤ 2 ^ 53 := by
  have hu : ulp q = (2 : ℚ) ^ (max (Int.log 2 q) (-1022) - 52) := by
    unfold ulp; rw [abs_of_pos hq]
  have h1 : q < (2 : ℚ) ^ (max (Int.log 2 q) (-1022) + 1) :=
    lt_of_lt_of_le (lt_zpow_log_succ q)
      (zpow_le_zpow_right₀ (by norm_num) (by omega))
  have h2 : q / ulp q ≤ (((2 : ℤ) ^ 53 : ℤ) : ℚ) := by
    rw [div_le_iff₀ (ulp_pos q), hu, intpow_mul_zpow]
    have : max (Int.log 2 q) (-1022) - 52 + ((53 : ℕ) : ℤ) = max (Int.log 2 q) (-1022) + 1 := by
      push_cast; ring
    rw [this]; exact h1.le
  have h3 := rne_mono h2
  rwa [rne_intCast] at h3

/-- Rounding is idempotent: a rounded value is a binary64 value. -/
theorem roundQ_idem {q : ℚ} (hq : 0 ≤ q) : roundQ (roundQ q) = roundQ q := by
  rcases hq.eq_or_lt with h0 | hpos
  · rw [← h0]; simp [roundQ]
  have hN0 : 0 ≤ rne (q / ulp q) := rne_nonneg (div_nonneg hpos.le (ulp_pos q).le)
  have hN1 : rne (q / ulp q) ≤ 2 ^ 53 := rne_div_ulp_le hpos
  have hu : ulp q = (2 : ℚ) ^ (max (Int.log 2 q) (-1022) - 52) := by
    unfold ulp; rw [abs_of_pos hpos]
  have hval : roundQ q = (rne (q / ulp q) : ℚ) * (2 : ℚ) ^ (max (Int.log 2 q) (-1022) - 52) := by
    unfold roundQ; rw [if_neg hpos.ne', hu]
  have hk : (-1074 : ℤ) ≤ max (Int.log 2 q) (-1022) - 52 := by
    have := le_max_right (Int.log 2 q) (-1022); omega
  rcases hN1.lt_or_eq with hlt | heq
  · rw [hval]
    exact roundQ_dyadic _ _ (by rw [abs_of_nonneg hN0]; exact hlt) hk
  · have h2 : roundQ q = ((1 : ℤ) : ℚ) * (2 : ℚ) ^ (max (Int.log 2 q) (-1022) + 1) := by
      rw [hval, heq, intpow_mul_zpow]
      have : max (Int.log 2 q) (-1022) - 52 + ((53 : ℕ) : ℤ) = max (Int.log 2 q) (-1022) + 1 := by
        push_cast; ring
      rw [this]; simp
    rw [h2]
    exact roundQ_dyadic 1 _ (by norm_num) (by omega)

/-- Rounding a natural number gives a natural number. -/
theorem roundQ_natCast_nat (n : ℕ) : ∃ k : ℕ, roundQ (n : ℚ) = (k : ℚ) := by
  by_cases hn : n < 2 ^ 53
  · exact ⟨n, roundQ_natCast n hn⟩
  push_neg at hn
  have hpos : (0 : ℚ) < (n : ℚ) := by
    have : 0 < n := lt_of_lt_of_le (by positivity) hn
    exact_mod_cast this
  have hlog : (53 : ℤ) ≤ Int.log 2 (n : ℚ) := by
    apply (Int.zpow_le_iff_le_log (R := ℚ) (b := 2) (by norm_num) hpos).mp
    have h : (2 : ℚ) ^ (53 : ℕ) ≤ (n : ℚ) := by exact_mod_cast hn
    rw [← zpow_natCast] at h
    simpa using h
  have hN0 : 0 ≤ rne ((n : ℚ) / ulp (n : ℚ)) :=
    rne_nonneg (div_nonneg hpos.le (ulp_pos _).le)
  obtain ⟨d, hd⟩ : ∃ d : ℕ, (d : ℤ) = max (Int.log 2 (n : ℚ)) (-1022) - 52 :=
    ⟨(max (Int.log 2 (n : ℚ)) (-1022) - 52).toNat, by
      have := le_max_left (Int.log 2 (n : ℚ)) (-1022); omega⟩
  have hu : ulp (n : ℚ) = ((2 ^ d : ℕ) : ℚ) := by
    unfold ulp; rw [abs_of_pos hpos, ← hd, zpow_natCast]; push_cast; rfl
  refine ⟨(rne ((n : ℚ) / ulp (n : ℚ))).toNat * 2 ^ d, ?_⟩
  unfold roundQ
  rw [if_neg hpos.ne']
  have hcast : ((rne ((n : ℚ) / ulp (n : ℚ)) : ℤ) : ℚ) =
      (((rne ((n : ℚ) / ulp (n : ℚ))).toNat : ℕ) : ℚ) := by
    have h := Int.toNat_of_nonneg hN0
    calc ((rne ((n : ℚ) / ulp (n : ℚ)) : ℤ) : ℚ)
        = ((((rne ((n : ℚ) / ulp (n : ℚ))).toNat : ℕ) : ℤ) : ℚ) := by rw [h]
      _ = _ := Int.cast_natCast _
  rw [hcast]
  nth_rewrite 2 [hu]
  push_cast; ring

/-- A non-negative rational below `2 ^ 1023` rounds to a finite value. -/
theorem roundQ_lt_of_lt {q : ℚ} (h0 : 0 ≤ q) (hq : q < (2 : ℚ) ^ 1023) :
    roundQ q < (2 : ℚ) ^ 1024 := by
  have h1 : q ≤ (2 : ℚ) ^ (1023 : ℤ) := by
    rw [← zpow_natCast] at hq
    exact hq.le
  have h2 := roundQ_mono h0 h1
  have h3 : roundQ ((2 : ℚ) ^ (1023 : ℤ)) = (2 : ℚ) ^ (1023 : ℤ) := by
    simpa using roundQ_dyadic 1 1023 (by norm_num) (by norm_num)
  rw [h3] at h2
  have h4 : (2 : ℚ) ^ (1023 : ℤ) < (2 : ℚ) ^ (1024 : ℕ) := by
    rw [← zpow_natCast]
    exact zpow_lt_zpow_right₀ (by norm_num) (by norm_num)
  exact lt_of_le_of_lt h2 h4

/-! ## Math.pow, Math.round and Math.floor -/

theorem mathPow_zero_exponent (E : ℚ → ℚ → Number) (base : Number) :
    mathPow E base (Number.fin 0) = Number.fin 1 := by
  simp [mathPow]

/-- With an engine that is exact at exponent 1, `Math.pow(x, 1)` is `x`. -/
theorem mathPow_one_exponent (E : ℚ → ℚ → Number) (hE : ∀ b : ℚ, b ≠ 0 → E b 1 = Number.fin b)
    (x : Number) : mathPow E x (Number.fin 1) = x := by
  cases x with
  | nan => simp [mathPow]
  | posInf => simp [mathPow, Number.isNeg]
  | negInf => simp [mathPow, Number.isNeg, isOddInteger]
  | fin b =>
    by_cases hb : b = 0
    · simp [mathPow, hb, Number.isNeg]
    · simp [mathPow, hb, hE b hb]

theorem mathPow_zero_base (E : ℚ → ℚ → Number) {p : ℚ} (hp : 0 < p) :
    mathPow E (Number.fin 0) (Number.fin p) = Number.fin 0 := by
  have h1 : ¬ p < 0 := not_lt.mpr hp.le
  simp [mathPow, hp.ne', Number.isNeg, h1]

theorem mathPow_fin (E : ℚ → ℚ → Number) {b p : ℚ} (hb : 0 < b) (hp : p ≠ 0) :
    mathPow E (Number.fin b) (Number.fin p) = E b p := by
  have h1 : ¬ b < 0 := not_lt.mpr hb.le
  simp [mathPow, hp, hb.ne', h1]

theorem mathPow_nan_base (E : ℚ → ℚ → Number) {p : ℚ} (hp : p ≠ 0) :
    mathPow E Number.nan (Number.fin p) = Number.nan := by
  simp [mathPow, hp]

theorem mathPow_posInf_base (E : ℚ → ℚ → Number) {p : ℚ} (hp : 0 < p) :
    mathPow E Number.posInf (Number.fin p) = Number.posInf := by
  have h1 : ¬ p < 0 := not_lt.mpr hp.le
  simp [mathPow, hp.ne', Number.isNeg, h1]

theorem mathPow_one_posInf (E : ℚ → ℚ → Number) :
    mathPow E (Number.fin 1) Number.posInf = Number.nan := by
  simp [mathPow]

theorem sub_one_natCast (L : ℕ) (h1 : 1 ≤ L) (hL : L ≤ 2 ^ 53) :
    (Number.ofNat L).sub (Number.fin 1) = Number.fin ((L - 1 : ℕ) : ℚ) := by
  have h : ((L : ℚ) + -1) = ((L - 1 : ℕ) : ℚ) := by
    rw [Nat.cast_sub h1]; push_cast; ring
  simp only [Number.sub, Number.ofNat, Number.neg, Number.add]
  rw [h, toDouble_natCast _ (by omega)]

theorem mul_255_one : (Number.fin 1).mul (Number.fin 255) = Number.fin 255 := by
  simp only [Number.mul]
  have := toDouble_natCast 255 (by norm_num)
  simpa using this

theorem mul_255_zero : (Number.fin 0).mul (Number.fin 255) = Number.fin 0 := by
  simp only [Number.mul]
  simpa using toDouble_zero

theorem mathRound_natCast (n : ℕ) : mathRound (Number.fin (n : ℚ)) = Number.fin (n : ℚ) := by
  simp only [mathRound]
  congr 1
  have : ⌊(n : ℚ) + 1 / 2⌋ = (n : ℤ) := by
    rw [Int.floor_eq_iff]; push_cast; constructor <;> linarith
  rw [this]; simp

theorem integralPow_one (b : ℚ) : integralPow b 1 = Number.fin b := by
  simp [integralPow]

theorem integralPow_two_one :
    mathPow integralPow (Number.fin 2) (Number.fin 1) = Number.fin 2 := by
  rw [mathPow_fin integralPow (by norm_num) (by norm_num), integralPow_one]

theorem integralPow_one_two : integralPow 1 2 = Number.fin 1 := by
  have h1 : (2 : ℚ) ≠ 1 := by norm_num
  have h2 : (2 : ℚ).den = 1 := by norm_num
  simp only [integralPow, if_neg h1, h2, if_true, one_zpow, toDouble_one]


/-- The number `level - 1` for a level count `L ≥ 1` in the finite range: a
positive-or-zero natural number, unchanged by a further rounding. -/
theorem sub_one_finite (L : ℕ) (h1 : 1 ≤ L) (hfin : (L : ℚ) < (2 : ℚ) ^ 1023) :
    ∃ m : ℕ, (Number.ofNat L).sub (Number.fin 1) = Number.fin (m : ℚ) ∧
      roundQ (m : ℚ) = (m : ℚ) ∧ (m : ℚ) < (2 : ℚ) ^ 1024 ∧ (2 ≤ L → 1 ≤ m) ∧
      (L ≤ 2 ^ 53 → m = L - 1) := by
  have hq0 : (0 : ℚ) ≤ ((L - 1 : ℕ) : ℚ) := Nat.cast_nonneg _
  have hqL : ((L - 1 : ℕ) : ℚ) < (2 : ℚ) ^ 1023 := by
    have : ((L - 1 : ℕ) : ℚ) ≤ (L : ℚ) := by exact_mod_cast Nat.sub_le L 1
    exact lt_of_le_of_lt this hfin
  obtain ⟨m, hm⟩ := roundQ_natCast_nat (L - 1)
  have hlt := roundQ_lt_of_lt hq0 hqL
  have hidem := roundQ_idem hq0
  rw [hm] at hlt hidem
  have hsub : (Number.ofNat L).sub (Number.fin 1) = Number.fin (m : ℚ) := by
    have h : ((L : ℚ) + -1) = ((L - 1 : ℕ) : ℚ) := by
      rw [Nat.cast_sub h1]; push_cast; ring
    simp only [Number.sub, Number.ofNat, Number.neg, Number.add]
    have hneg : -(2 : ℚ) ^ 1024 < (m : ℚ) :=
      lt_of_lt_of_le (neg_neg_of_pos (by positivity)) (Nat.cast_nonneg m)
    rw [h, toDouble_of_lt (by rw [hm]; exact hneg) (by rw [hm]; exact hlt), hm]
  refine ⟨m, hsub, hidem, hlt, ?_, ?_⟩
  · intro h2
    have h1q : (1 : ℚ) ≤ ((L - 1 : ℕ) : ℚ) := by
      have : 1 ≤ L - 1 := by omega
      exact_mod_cast this
    have := roundQ_mono (by norm_num) h1q
    rw [hm] at this
    have h11 : roundQ 1 = 1 := by simpa using roundQ_natCast 1 (by norm_num)
    rw [h11] at this
    exact_mod_cast this
  · intro h53
    have := roundQ_natCast (L - 1) (by omega)
    rw [hm] at this
    exact_mod_cast this

theorem natCast_lt_of_le (L : ℕ) (hL : L ≤ 2 ^ 53) : (L : ℚ) < (2 : ℚ) ^ 1023 := by
  have h1 : (L : ℚ) ≤ (2 : ℚ) ^ 53 := by exact_mod_cast hL
  have h2 : (2 : ℚ) ^ 53 < (2 : ℚ) ^ 1023 :=
    pow_lt_pow_right₀ (by norm_num : (1 : ℚ) < 2) (by norm_num : 53 < 1023)
  exact lt_of_le_of_lt h1 h2

theorem div_zero_left {n : ℚ} (hn : n ≠ 0) :
    (Number.fin 0).div (Number.fin n) = Number.fin 0 := by
  simp only [Number.div, if_neg hn, zero_div, toDouble_zero]

theorem div_self_fin {n : ℚ} (hn : n ≠ 0) :
    (Number.fin n).div (Number.fin n) = Number.fin 1 := by
  simp only [Number.div, if_neg hn, div_self hn, toDouble_one]

/-- The intensity at index 0 is 0 whenever the power `Math.pow(2, d)` is a
positive finite number. -/
theorem intensity_first (E : ℚ → ℚ → Number) (L : ℕ) (d : Number) (p : ℚ)
    (hL : 2 ≤ L) (hfin : (L : ℚ) < (2 : ℚ) ^ 1023)
    (hp : mathPow E (Number.fin 2) d = Number.fin p) (hpos : 0 < p) :
    intensity E (Number.ofNat 0) (Number.ofNat L) d = Number.fin 0 := by
  obtain ⟨m, hsub, _, _, hm1, _⟩ := sub_one_finite L (by omega) hfin
  have hne : (m : ℚ) ≠ 0 := by
    have : 1 ≤ m := hm1 hL
    have : 0 < m := this
    exact_mod_cast this.ne'
  simp only [intensity]
  rw [hsub, hp]
  have hx : (Number.ofNat 0).div (Number.fin (m : ℚ)) = Number.fin 0 := by
    simpa [Number.ofNat] using div_zero_left hne
  rw [hx, mathPow_zero_base E hpos, mul_255_zero]
  simpa using mathRound_natCast 0

/-- The intensity at the index `level - 1` is 255 whenever the power
`Math.pow(2, d)` is a positive finite number at which the engine maps base 1 to
1. -/
theorem intensity_last (E : ℚ → ℚ → Number) (L : ℕ) (d : Number) (p : ℚ)
    (hL : 2 ≤ L) (hfin : (L : ℚ) < (2 : ℚ) ^ 1023)
    (hp : mathPow E (Number.fin 2) d = Number.fin p)
    (hpos : 0 < p) (hone : E 1 p = Number.fin 1) :
    intensity E ((Number.ofNat L).sub (Number.fin 1)) (Number.ofNat L) d = Number.fin 255 := by
  obtain ⟨m, hsub, _, _, hm1, _⟩ := sub_one_finite L (by omega) hfin
  have hne : (m : ℚ) ≠ 0 := by
    have : 1 ≤ m := hm1 hL
    have : 0 < m := this
    exact_mod_cast this.ne'
  simp only [intensity]
  rw [hsub, hp, div_self_fin hne, mathPow_fin E (by norm_num) hpos.ne', hone, mul_255_one]
  simpa using mathRound_natCast 255

theorem integralPow_two_1024 : integralPow 2 1024 = Number.posInf := by
  have h1 : (1024 : ℚ) ≠ 1 := by norm_num
  have h2 : roundQ ((2 : ℚ) ^ (1024 : ℤ)) = (2 : ℚ) ^ (1024 : ℤ) := by
    simpa using roundQ_dyadic 1 1024 (by norm_num) (by norm_num)
  have h3 : (2 : ℚ) ^ (1024 : ℤ) = (2 : ℚ) ^ (1024 : ℕ) := zpow_natCast (2 : ℚ) 1024
  simp only [integralPow, if_neg h1]
  rw [if_pos (by simp)]
  have h4 : (1024 : ℚ).num = 1024 := by simp
  rw [h4]
  unfold toDouble
  rw [h2, h3, if_pos (le_refl _)]

theorem intensity_d1024 :
    intensity integralPow (Number.ofNat 4) (Number.ofNat 5) (Number.fin 1024) = Number.nan := by
  simp only [intensity]
  rw [sub_one_natCast 5 (by norm_num) (by norm_num)]
  have hx : (Number.ofNat 4).div (Number.fin ((5 - 1 : ℕ) : ℚ)) = Number.fin 1 := by
    simpa [Number.ofNat] using div_self_fin (n := 4) (by norm_num)
  rw [hx, mathPow_fin integralPow (by norm_num) (by norm_num), integralPow_two_1024,
    mathPow_one_posInf]
  rfl


theorem integralPow_two_underflow : integralPow 2 (-1080) = Number.fin 0 := by
  have h1 : (-1080 : ℚ) ≠ 1 := by norm_num
  have hq : (0 : ℚ) < (2 : ℚ) ^ (-1080 : ℤ) := by positivity
  have hlog : Int.log 2 |(2 : ℚ) ^ (-1080 : ℤ)| = -1080 := by
    rw [abs_of_pos hq]
    have := Int.log_zpow (R := ℚ) (b := 2) (by norm_num) (-1080)
    simpa using this
  have hu : ulp ((2 : ℚ) ^ (-1080 : ℤ)) = (2 : ℚ) ^ (-1074 : ℤ) := by
    unfold ulp; rw [hlog]; norm_num
  have hdiv : (2 : ℚ) ^ (-1080 : ℤ) / (2 : ℚ) ^ (-1074 : ℤ) = 1 / 64 := by
    rw [← zpow_sub₀ (by norm_num)]; norm_num
  have hr : roundQ ((2 : ℚ) ^ (-1080 : ℤ)) = 0 := by
    unfold roundQ
    rw [if_neg hq.ne', hu, hdiv, rne_unique (n := 0) (by norm_num) (by norm_num)]
    simp
  have h4 : (-1080 : ℚ).num = -1080 := by norm_num
  have h5 : (-1080 : ℚ).den = 1 := by norm_num
  simp only [integralPow, if_neg h1, h5, if_true, h4]
  rw [toDouble_of_lt (by rw [hr]; simp) (by rw [hr]; positivity), hr]

theorem intensity_underflow :
    intensity integralPow (Number.ofNat 0) (Number.ofNat 5) (Number.fin (-1080)) =
      Number.fin 255 := by
  simp only [intensity]
  rw [sub_one_natCast 5 (by norm_num) (by norm_num)]
  have hx : (Number.ofNat 0).div (Number.fin ((5 - 1 : ℕ) : ℚ)) = Number.fin 0 := by
    simpa [Number.ofNat] using div_zero_left (n := 4) (by norm_num)
  rw [hx, mathPow_fin integralPow (by norm_num) (by norm_num), integralPow_two_underflow,
    mathPow_zero_exponent, mul_255_one]
  simpa using mathRound_natCast 255

/-! ## Level navigation -/

theorem changeLevels_levels (s : LevelState) (directions : List ℤ) :
    (changeLevels s directions).levels = s.levels := by
  induction directions generalizing s with
  | nil => rfl
  | cons d ds ih =>
    simp only [changeLevels, List.foldl_cons] at ih ⊢
    rw [ih]; rfl

theorem changeLevels_range (s : LevelState) (directions : List ℤ)
    (hlen : 0 < s.levels.length)
    (h0 : 0 ≤ s.currentLevelIndex) (h1 : s.currentLevelIndex ≤ (s.levels.length : ℤ) - 1) :
    0 ≤ (changeLevels s directions).currentLevelIndex ∧
      (changeLevels s directions).currentLevelIndex ≤ (s.levels.length : ℤ) - 1 := by
  induction directions generalizing s with
  | nil => exact ⟨h0, h1⟩
  | cons d ds ih =>
    simp only [changeLevels, List.foldl_cons] at ih ⊢
    have hl : (changeLevel s d).levels = s.levels := rfl
    have := ih (changeLevel s d) (by rw [hl]; exact hlen)
      (by simp only [changeLevel]; omega) (by simp only [changeLevel]; omega)
    rw [hl] at this
    exact this


/-! ## Monotonicity -/

theorem le_nan_right (a : Number) : a.le Number.nan = false := by
  cases a <;> rfl

theorem toDouble_le {a b : ℚ} (ha : 0 ≤ a) (hab : a ≤ b) :
    (toDouble a).le (toDouble b) = true := by
  have h1 : roundQ a ≤ roundQ b := roundQ_mono ha hab
  have h0 : 0 ≤ roundQ a := roundQ_nonneg ha
  have hbig : (0 : ℚ) < (2 : ℚ) ^ 1024 := by positivity
  unfold toDouble
  by_cases hA : (2 : ℚ) ^ 1024 ≤ roundQ a
  · rw [if_pos hA, if_pos (le_trans hA h1)]; rfl
  · rw [if_neg hA, if_neg (by linarith)]
    by_cases hB : (2 : ℚ) ^ 1024 ≤ roundQ b
    · rw [if_pos hB]; rfl
    · rw [if_neg hB, if_neg (by linarith)]
      simpa [Number.le] using h1

theorem mathRound_le {a b : Number} (h : a.le b = true) :
    (mathRound a).le (mathRound b) = true := by
  cases a <;> cases b <;> simp_all [Number.le, mathRound]
  rename_i x y
  exact Int.floor_mono (by linarith)

/-- The intensity is non-decreasing in the index when the power is a positive
finite number at which the engine's `Math.pow` is non-negative and monotone in
its base on `(0, 1]`. -/
theorem intensity_mono (E : ℚ → ℚ → Number) (L : ℕ) (d : Number) (p : ℚ)
    (hL : 2 ≤ L) (hfin : (L : ℚ) < (2 : ℚ) ^ 1023)
    (hp : mathPow E (Number.fin 2) d = Number.fin p) (hpos : 0 < p)
    (hmono : ∀ a b : ℚ, 0 < a → a ≤ b → b ≤ 1 →
      ∃ u v : ℚ, E a p = Number.fin u ∧ E b p = Number.fin v ∧ 0 ≤ u ∧ u ≤ v)
    (i j : ℕ) (hij : i ≤ j)
    (hj : (Number.ofNat j).le ((Number.ofNat L).sub (Number.fin 1)) = true) :
    (intensity E (Number.ofNat i) (Number.ofNat L) d).le
      (intensity E (Number.ofNat j) (Number.ofNat L) d) = true := by
  obtain ⟨m, hsub, _, _, hm1, _⟩ := sub_one_finite L (by omega) hfin
  have hnpos : (0 : ℚ) < (m : ℚ) := by
    have : 1 ≤ m := hm1 hL
    exact_mod_cast this
  have hn : (m : ℚ) ≠ 0 := hnpos.ne'
  have hiq : (i : ℚ) ≤ (j : ℚ) := by exact_mod_cast hij
  have hjq : (j : ℚ) ≤ (m : ℚ) := by
    rw [hsub] at hj
    simpa [Number.le, Number.ofNat] using hj
  have hi0 : (0 : ℚ) ≤ (i : ℚ) := Nat.cast_nonneg _
  have hj0 : (0 : ℚ) ≤ (j : ℚ) := Nat.cast_nonneg _
  -- the normalized positions
  obtain ⟨exi, xi0, xi1⟩ := toDouble_bounded (q := (i : ℚ) / (m : ℚ)) (n := 1)
    (div_nonneg hi0 hnpos.le) (by rw [div_le_iff₀ hnpos]; push_cast; linarith) (by norm_num)
  obtain ⟨exj, xj0, xj1⟩ := toDouble_bounded (q := (j : ℚ) / (m : ℚ)) (n := 1)
    (div_nonneg hj0 hnpos.le) (by rw [div_le_iff₀ hnpos]; push_cast; linarith) (by norm_num)
  push_cast at xi1 xj1
  have hxx : roundQ ((i : ℚ) / (m : ℚ)) ≤ roundQ ((j : ℚ) / (m : ℚ)) :=
    roundQ_mono (div_nonneg hi0 hnpos.le) (div_le_div_of_nonneg_right hiq hnpos.le)
  have hdi : (Number.ofNat i).div (Number.fin (m : ℚ)) =
      Number.fin (roundQ ((i : ℚ) / (m : ℚ))) := by
    simp only [Number.div, Number.ofNat]; rw [if_neg hn]; exact exi
  have hdj : (Number.ofNat j).div (Number.fin (m : ℚ)) =
      Number.fin (roundQ ((j : ℚ) / (m : ℚ))) := by
    simp only [Number.div, Number.ofNat]; rw [if_neg hn]; exact exj
  set xi := roundQ ((i : ℚ) / (m : ℚ)) with hxi
  set xj := roundQ ((j : ℚ) / (m : ℚ)) with hxj
  -- the powers
  have hpow : ∃ u v : ℚ, mathPow E (Number.fin xi) (Number.fin p) = Number.fin u ∧
      mathPow E (Number.fin xj) (Number.fin p) = Number.fin v ∧ 0 ≤ u ∧ u ≤ v := by
    rcases xi0.eq_or_lt with hi0' | hipos
    · rw [← hi0', mathPow_zero_base E hpos]
      rcases xj0.eq_or_lt with hj0' | hjpos
      · rw [← hj0', mathPow_zero_base E hpos]
        exact ⟨0, 0, rfl, rfl, le_refl 0, le_refl 0⟩
      · obtain ⟨u, v, hu, hv, hu0, huv⟩ := hmono xj xj hjpos (le_refl _) xj1
        rw [mathPow_fin E hjpos hpos.ne']
        exact ⟨0, v, rfl, hv, le_refl 0, le_trans hu0 huv⟩
    · have hjpos : 0 < xj := lt_of_lt_of_le hipos hxx
      rw [mathPow_fin E hipos hpos.ne', mathPow_fin E hjpos hpos.ne']
      exact hmono xi xj hipos hxx xj1
  obtain ⟨u, v, hu, hv, hu0, huv⟩ := hpow
  simp only [intensity]
  rw [hsub, hp, hdi, hdj, hu, hv]
  apply mathRound_le
  simp only [Number.mul]
  exact toDouble_le (mul_nonneg hu0 (by norm_num)) (by nlinarith)

/-- For a level count up to `2 ^ 53` the comparison `j <= level - 1` is the
comparison of integers. -/
theorem le_sub_one_natCast (L j : ℕ) (h1 : 1 ≤ L) (hL : L ≤ 2 ^ 53) (hj : j ≤ L - 1) :
    (Number.ofNat j).le ((Number.ofNat L).sub (Number.fin 1)) = true := by
  rw [sub_one_natCast L h1 hL]
  have : (j : ℚ) ≤ ((L - 1 : ℕ) : ℚ) := by exact_mod_cast hj
  simpa [Number.le, Number.ofNat] using this

theorem integralPow_square_mono (a b : ℚ) (ha : 0 < a) (hab : a ≤ b) (hb : b ≤ 1) :
    ∃ u v : ℚ, integralPow a 2 = Number.fin u ∧ integralPow b 2 = Number.fin v ∧
      0 ≤ u ∧ u ≤ v := by
  have h1 : (2 : ℚ) ≠ 1 := by norm_num
  have h2 : (2 : ℚ).den = 1 := by norm_num
  have h3 : (2 : ℚ).num = 2 := by norm_num
  have hb0 : 0 < b := lt_of_lt_of_le ha hab
  have ha2 : a ^ (2 : ℤ) = a * a := by rw [zpow_ofNat]; ring
  have hb2 : b ^ (2 : ℤ) = b * b := by rw [zpow_ofNat]; ring
  obtain ⟨ea, a0, _⟩ := toDouble_bounded (q := a * a) (n := 1) (by positivity)
    (by push_cast; nlinarith) (by norm_num)
  obtain ⟨eb, _, _⟩ := toDouble_bounded (q := b * b) (n := 1) (by positivity)
    (by push_cast; nlinarith) (by norm_num)
  refine ⟨roundQ (a * a), roundQ (b * b), ?_, ?_, a0, roundQ_mono (by positivity) (by nlinarith)⟩
  · simp only [integralPow, if_neg h1, h2, if_true, h3, ha2]; exact ea
  · simp only [integralPow, if_neg h1, h2, if_true, h3, hb2]; exact eb


/-! ## Evaluation in binary64 -/

/-- The rounding of a positive rational in the normal range, once its binary
exponent is known. -/
theorem roundQ_of_log {q : ℚ} {e : ℤ} (hq : 0 < q) (h1 : (2 : ℚ) ^ e ≤ q)
    (h2 : q < (2 : ℚ) ^ (e + 1)) (he : -1022 ≤ e) :
    roundQ q = (rne (q / (2 : ℚ) ^ (e - 52)) : ℚ) * (2 : ℚ) ^ (e - 52) := by
  have hlog : Int.log 2 q = e := by
    apply le_antisymm
    · have := (Int.lt_zpow_iff_log_lt (R := ℚ) (b := 2) (by norm_num) hq (x := e + 1)).mp
        (by simpa using h2)
      omega
    · exact (Int.zpow_le_iff_le_log (R := ℚ) (b := 2) (by norm_num) hq).mp (by simpa using h1)
  unfold roundQ ulp
  rw [if_neg hq.ne', abs_of_pos hq, hlog, max_eq_left he]

/-- The binary64 value of an exact result whose rounding is known. -/
theorem toDouble_eval {q v : ℚ} (h : roundQ q = v) (h0 : 0 ≤ v) (h1 : v < (2 : ℚ) ^ 53) :
    toDouble q = Number.fin v := by
  have hbig : v < (2 : ℚ) ^ 1024 :=
    lt_trans h1 (pow_lt_pow_right₀ (by norm_num : (1 : ℚ) < 2) (by norm_num : 53 < 1024))
  have hneg : -(2 : ℚ) ^ 1024 < v := lt_of_lt_of_le (neg_neg_of_pos (by positivity)) h0
  rw [toDouble_of_lt (by rw [h]; exact hneg) (by rw [h]; exact hbig), h]

theorem roundQ_zero : roundQ 0 = 0 := by
  simp [roundQ]

theorem lit_299 : toDouble (299 / 1000) =
    Number.fin (5386305154335113 / 18014398509481984) := by
  refine toDouble_eval ?_ (by norm_num) (by norm_num)
  rw [roundQ_of_log (e := -2) (by norm_num) (by norm_num) (by norm_num) (by norm_num)]
  norm_num [rne, Int.fract]

theorem lit_587 : toDouble (587 / 1000) =
    Number.fin (2643612981266481 / 4503599627370496) := by
  refine toDouble_eval ?_ (by norm_num) (by norm_num)
  rw [roundQ_of_log (e := -1) (by norm_num) (by norm_num) (by norm_num) (by norm_num)]
  norm_num [rne, Int.fract]

theorem lit_114 : toDouble (114 / 1000) =
    Number.fin (8214565720323785 / 72057594037927936) := by
  refine toDouble_eval ?_ (by norm_num) (by norm_num)
  rw [roundQ_of_log (e := -4) (by norm_num) (by norm_num) (by norm_num) (by norm_num)]
  norm_num [rne, Int.fract]

theorem white_299 : roundQ (255 * (5386305154335113 / 18014398509481984)) =
    5365264899825991 / 70368744177664 := by
  rw [roundQ_of_log (e := 6) (by norm_num) (by norm_num) (by norm_num) (by norm_num)]
  norm_num [rne, Int.fract]

theorem white_587 : roundQ (255 * (2643612981266481 / 4503599627370496)) =
    2633286368058409 / 17592186044416 := by
  rw [roundQ_of_log (e := 7) (by norm_num) (by norm_num) (by norm_num) (by norm_num)]
  norm_num [rne, Int.fract]

theorem white_114 : roundQ (255 * (8214565720323785 / 72057594037927936)) =
    4091238786489385 / 140737488355328 := by
  rw [roundQ_of_log (e := 4) (by norm_num) (by norm_num) (by norm_num) (by norm_num)]
  norm_num [rne, Int.fract]

theorem white_sum1 : roundQ (5365264899825991 / 70368744177664 +
    2633286368058409 / 17592186044416) = 3974602593014907 / 17592186044416 := by
  rw [roundQ_of_log (e := 7) (by norm_num) (by norm_num) (by norm_num) (by norm_num)]
  norm_num [rne, Int.fract]

theorem white_sum2 : roundQ (3974602593014907 / 17592186044416 +
    4091238786489385 / 140737488355328) = 255 := by
  rw [roundQ_of_log (e := 7) (by norm_num) (by norm_num) (by norm_num) (by norm_num)]
  norm_num [rne, Int.fract]

/-- A channel byte times a luminance weight: finite, non-negative and at most
the product obtained for the byte 255. -/
theorem mul_weight (r : ℕ) (c : ℚ) (hr : r ≤ 255) (hc0 : 0 ≤ c) (hc1 : c ≤ 1) :
    (Number.ofNat r).mul (Number.fin c) = Number.fin (roundQ (r * c)) ∧
      0 ≤ roundQ (r * c) ∧ roundQ (r * c) ≤ roundQ (255 * c) := by
  have hr' : (r : ℚ) ≤ 255 := by exact_mod_cast hr
  have hr0 : (0 : ℚ) ≤ r := by positivity
  have h1 : (r : ℚ) * c ≤ ((255 : ℕ) : ℚ) := by push_cast; nlinarith
  have hb := toDouble_bounded (mul_nonneg hr0 hc0) h1 (by norm_num)
  refine ⟨?_, hb.2.1, roundQ_mono (mul_nonneg hr0 hc0) (by nlinarith)⟩
  simp only [Number.mul, Number.ofNat]
  exact hb.1

/-- The sum of two finite non-negative numbers below 256. -/
theorem add_bounded (a b A B : ℚ) (ha0 : 0 ≤ a) (hb0 : 0 ≤ b) (ha : a ≤ A) (hb : b ≤ B)
    (hAB : A + B ≤ 256) :
    (Number.fin a).add (Number.fin b) = Number.fin (roundQ (a + b)) ∧
      0 ≤ roundQ (a + b) ∧ roundQ (a + b) ≤ roundQ (A + B) := by
  have h1 : a + b ≤ ((256 : ℕ) : ℚ) := by push_cast; linarith
  have hb' := toDouble_bounded (add_nonneg ha0 hb0) h1 (by norm_num)
  refine ⟨?_, hb'.2.1, roundQ_mono (add_nonneg ha0 hb0) (by linarith)⟩
  simp only [Number.add]
  exact hb'.1

/-- The luminance of a pixel with byte channels, as a chain of five roundings:
a finite number in `[0, 255]`. -/
theorem luminance_value (r g b : ℕ) (hr : r ≤ 255) (hg : g ≤ 255) (hb : b ≤ 255) :
    luminance (Number.ofNat r) (Number.ofNat g) (Number.ofNat b) =
        Number.fin (roundQ (roundQ (roundQ (r * (5386305154335113 / 18014398509481984)) +
          roundQ (g * (2643612981266481 / 4503599627370496))) +
          roundQ (b * (8214565720323785 / 72057594037927936)))) ∧
      0 ≤ roundQ (roundQ (roundQ (r * (5386305154335113 / 18014398509481984)) +
          roundQ (g * (2643612981266481 / 4503599627370496))) +
          roundQ (b * (8214565720323785 / 72057594037927936))) ∧
      roundQ (roundQ (roundQ (r * (5386305154335113 / 18014398509481984)) +
          roundQ (g * (2643612981266481 / 4503599627370496))) +
          roundQ (b * (8214565720323785 / 72057594037927936))) ≤ 255 := by
  obtain ⟨e1, p1, q1⟩ := mul_weight r (5386305154335113 / 18014398509481984) hr
    (by norm_num) (by norm_num)
  obtain ⟨e2, p2, q2⟩ := mul_weight g (2643612981266481 / 4503599627370496) hg
    (by norm_num) (by norm_num)
  obtain ⟨e3, p3, q3⟩ := mul_weight b (8214565720323785 / 72057594037927936) hb
    (by norm_num) (by norm_num)
  rw [white_299] at q1
  rw [white_587] at q2
  rw [white_114] at q3
  obtain ⟨e4, p4, q4⟩ := add_bounded _ _ _ _ p1 p2 q1 q2 (by norm_num)
  rw [white_sum1] at q4
  obtain ⟨e5, p5, q5⟩ := add_bounded _ _ _ _ p4 p3 q4 q3 (by norm_num)
  rw [white_sum2] at q5
  refine ⟨?_, p5, q5⟩
  simp only [luminance]
  rw [lit_299, lit_587, lit_114, e1, e2, e3, e4, e5]

/-- The luminance of a pixel with byte channels is a finite number in `[0, 255]`. -/
theorem luminance_bounded (r g b : ℕ) (hr : r ≤ 255) (hg : g ≤ 255) (hb : b ≤ 255) :
    ∃ y : ℚ, luminance (Number.ofNat r) (Number.ofNat g) (Number.ofNat b) = Number.fin y ∧
      0 ≤ y ∧ y ≤ 255 :=
  ⟨_, luminance_value r g b hr hg hb⟩

theorem luminance_white :
    luminance (Number.ofNat 255) (Number.ofNat 255) (Number.ofNat 255) = Number.fin 255 := by
  rw [(luminance_value 255 255 255 (le_refl _) (le_refl _) (le_refl _)).1]
  simp only [Nat.cast_ofNat]
  rw [white_299, white_587, white_114, white_sum1, white_sum2]

theorem luminance_black :
    luminance (Number.ofNat 0) (Number.ofNat 0) (Number.ofNat 0) = Number.fin 0 := by
  rw [(luminance_value 0 0 0 (by norm_num) (by norm_num) (by norm_num)).1]
  simp [roundQ_zero]

/-- The luminance of the grey pixel `(191,191,191)` is exactly 191. -/
theorem luminance_191 :
    luminance (Number.ofNat 191) (Number.ofNat 191) (Number.ofNat 191) = Number.fin 191 := by
  have h1 : roundQ (191 * (5386305154335113 / 18014398509481984)) =
      4018688611242213 / 70368744177664 := by
    rw [roundQ_of_log (e := 5) (by norm_num) (by norm_num) (by norm_num) (by norm_num)]
    norm_num [rne, Int.fract]
  have h2 : roundQ (191 * (2643612981266481 / 4503599627370496)) =
      3944766245483577 / 35184372088832 := by
    rw [roundQ_of_log (e := 6) (by norm_num) (by norm_num) (by norm_num) (by norm_num)]
    norm_num [rne, Int.fract]
  have h3 : roundQ (191 * (8214565720323785 / 72057594037927936)) =
      191526129465557 / 8796093022208 := by
    rw [roundQ_of_log (e := 4) (by norm_num) (by norm_num) (by norm_num) (by norm_num)]
    norm_num [rne, Int.fract]
  have h4 : roundQ (4018688611242213 / 70368744177664 + 3944766245483577 / 35184372088832) =
      1488527637776171 / 8796093022208 := by
    rw [roundQ_of_log (e := 7) (by norm_num) (by norm_num) (by norm_num) (by norm_num)]
    norm_num [rne, Int.fract]
  have h5 : roundQ (1488527637776171 / 8796093022208 + 191526129465557 / 8796093022208) =
      191 := by
    rw [roundQ_of_log (e := 7) (by norm_num) (by norm_num) (by norm_num) (by norm_num)]
    norm_num [rne, Int.fract]
  rw [(luminance_value 191 191 191 (by norm_num) (by norm_num) (by norm_num)).1]
  simp only [Nat.cast_ofNat]
  rw [h1, h2, h3, h4, h5]

/-- For `L = 5` the grey pixel `(191,191,191)` is given the index 2. -/
theorem quantIndex_191 :
    quantIndex (Number.ofNat 5) (Number.ofNat 191) (Number.ofNat 191) (Number.ofNat 191) =
      Number.fin 2 := by
  have hn : roundQ (191 / 255) = 843321106693887 / 1125899906842624 := by
    rw [roundQ_of_log (e := -1) (by norm_num) (by norm_num) (by norm_num) (by norm_num)]
    norm_num [rne, Int.fract]
  have ht : roundQ (843321106693887 / 1125899906842624 * 4) =
      843321106693887 / 281474976710656 := by
    rw [roundQ_of_log (e := 1) (by norm_num) (by norm_num) (by norm_num) (by norm_num)]
    norm_num [rne, Int.fract]
  have hdiv : (Number.fin 191).div (Number.fin 255) =
      Number.fin (843321106693887 / 1125899906842624) := by
    simp only [Number.div]
    rw [if_neg (by norm_num)]
    exact toDouble_eval hn (by norm_num) (by norm_num)
  have hsub : (Number.ofNat 5).sub (Number.fin 1) = Number.fin 4 := by
    rw [sub_one_natCast 5 (by norm_num) (by norm_num)]
    norm_num
  have hmul : (Number.fin (843321106693887 / 1125899906842624)).mul (Number.fin 4) =
      Number.fin (843321106693887 / 281474976710656) := by
    simp only [Number.mul]
    exact toDouble_eval ht (by norm_num) (by norm_num)
  simp only [quantIndex]
  rw [luminance_191, hdiv, hsub, hmul]
  norm_num [mathFloor]

/-- The five intensities of the linear table for `L = 5`, in binary64:
`Math.round(k / 4 * 255)`. -/
theorem linear_table_five :
    mathRound (((Number.ofNat 0).div ((Number.ofNat 5).sub (Number.fin 1))).mul
        (Number.fin 255)) = Number.fin 0 ∧
      mathRound (((Number.ofNat 1).div ((Number.ofNat 5).sub (Number.fin 1))).mul
        (Number.fin 255)) = Number.fin 64 ∧
      mathRound (((Number.ofNat 2).div ((Number.ofNat 5).sub (Number.fin 1))).mul
        (Number.fin 255)) = Number.fin 128 ∧
      mathRound (((Number.ofNat 3).div ((Number.ofNat 5).sub (Number.fin 1))).mul
        (Number.fin 255)) = Number.fin 191 ∧
      mathRound (((Number.ofNat 4).div ((Number.ofNat 5).sub (Number.fin 1))).mul
        (Number.fin 255)) = Number.fin 255 := by
  have hsub : (Number.ofNat 5).sub (Number.fin 1) = Number.fin 4 := by
    rw [sub_one_natCast 5 (by norm_num) (by norm_num)]
    norm_num
  have key : ∀ (k : ℕ) (x y : ℚ) (v : ℤ), roundQ ((k : ℚ) / 4) = x → 0 ≤ x → x < 2 ^ 53 →
      roundQ (x * 255) = y → 0 ≤ y → y < 2 ^ 53 → ⌊y + 1 / 2⌋ = v →
      mathRound (((Number.ofNat k).div ((Number.ofNat 5).sub (Number.fin 1))).mul
        (Number.fin 255)) = Number.fin (v : ℚ) := by
    intro k x y v hx hx0 hx1 hy hy0 hy1 hv
    rw [hsub]
    simp only [Number.div, Number.ofNat]
    rw [if_neg (by norm_num), toDouble_eval hx hx0 hx1]
    simp only [Number.mul]
    rw [toDouble_eval hy hy0 hy1]
    simp only [mathRound, hv]
  have d1 : roundQ ((1 : ℚ) / 4) = 1 / 4 := by
    rw [roundQ_of_log (e := -2) (by norm_num) (by norm_num) (by norm_num) (by norm_num)]
    norm_num [rne, Int.fract]
  have d2 : roundQ ((2 : ℚ) / 4) = 1 / 2 := by
    rw [roundQ_of_log (e := -1) (by norm_num) (by norm_num) (by norm_num) (by norm_num)]
    norm_num [rne, Int.fract]
  have d3 : roundQ ((3 : ℚ) / 4) = 3 / 4 := by
    rw [roundQ_of_log (e := -1) (by norm_num) (by norm_num) (by norm_num) (by norm_num)]
    norm_num [rne, Int.fract]
  have d4 : roundQ ((4 : ℚ) / 4) = 1 := by
    rw [roundQ_of_log (e := 0) (by norm_num) (by norm_num) (by norm_num) (by norm_num)]
    norm_num [rne, Int.fract]
  have m1 : roundQ ((1 : ℚ) / 4 * 255) = 255 / 4 := by
    rw [roundQ_of_log (e := 5) (by norm_num) (by norm_num) (by norm_num) (by norm_num)]
    norm_num [rne, Int.fract]
  have m2 : roundQ ((1 : ℚ) / 2 * 255) = 255 / 2 := by
    rw [roundQ_of_log (e := 6) (by norm_num) (by norm_num) (by norm_num) (by norm_num)]
    norm_num [rne, Int.fract]
  have m3 : roundQ ((3 : ℚ) / 4 * 255) = 765 / 4 := by
    rw [roundQ_of_log (e := 7) (by norm_num) (by norm_num) (by norm_num) (by norm_num)]
    norm_num [rne, Int.fract]
  have m4 : roundQ ((1 : ℚ) * 255) = 255 := by
    rw [roundQ_of_log (e := 7) (by norm_num) (by norm_num) (by norm_num) (by norm_num)]
    norm_num [rne, Int.fract]
  have m0 : roundQ ((0 : ℚ) * 255) = 0 := by simp [roundQ]
  have d0 : roundQ (((0 : ℕ) : ℚ) / 4) = 0 := by simp [roundQ]
  refine ⟨?_, ?_, ?_, ?_, ?_⟩
  · simpa using key 0 0 0 0 d0 (by norm_num) (by norm_num) m0 (by norm_num) (by norm_num)
      (by norm_num)
  · simpa using key 1 (1 / 4) (255 / 4) 64 (by simpa using d1) (by norm_num) (by norm_num) m1
      (by norm_num) (by norm_num) (by norm_num)
  · simpa using key 2 (1 / 2) (255 / 2) 128 (by simpa using d2) (by norm_num) (by norm_num) m2
      (by norm_num) (by norm_num) (by norm_num)
  · simpa using key 3 (3 / 4) (765 / 4) 191 (by simpa using d3) (by norm_num) (by norm_num) m3
      (by norm_num) (by norm_num) (by norm_num)
  · simpa using key 4 1 255 255 (by simpa using d4) (by norm_num) (by norm_num) m4
      (by norm_num) (by norm_num) (by norm_num)

/-! ## The quantizer index -/

theorem mathFloor_natCast (n : ℕ) : mathFloor (Number.fin (n : ℚ)) = Number.fin (n : ℚ) := by
  simp [mathFloor]

/-- The indices computed for the white and the black pixel. -/
theorem quantIndex_white_black (L : ℕ) (hL : 2 ≤ L) (hfin : (L : ℚ) < (2 : ℚ) ^ 1023) :
    quantIndex (Number.ofNat L) (Number.ofNat 255) (Number.ofNat 255) (Number.ofNat 255) =
        (Number.ofNat L).sub (Number.fin 1) ∧
      quantIndex (Number.ofNat L) (Number.ofNat 0) (Number.ofNat 0) (Number.ofNat 0) =
        Number.ofNat 0 := by
  obtain ⟨m, hsub, hidem, hlt, _, _⟩ := sub_one_finite L (by omega) hfin
  have hneg : -(2 : ℚ) ^ 1024 < (m : ℚ) :=
    lt_of_lt_of_le (neg_neg_of_pos (by positivity)) (Nat.cast_nonneg m)
  have h255 : (Number.fin 255).div (Number.fin 255) = Number.fin 1 :=
    div_self_fin (by norm_num)
  have h0 : (Number.fin 0).div (Number.fin 255) = Number.fin 0 :=
    div_zero_left (by norm_num)
  constructor
  · simp only [quantIndex]
    rw [luminance_white, h255, hsub]
    simp only [Number.mul, one_mul]
    rw [toDouble_of_lt (by rw [hidem]; exact hneg) (by rw [hidem]; exact hlt), hidem,
      mathFloor_natCast]
  · simp only [quantIndex]
    rw [luminance_black, h0, hsub]
    simp only [Number.mul, zero_mul]
    rw [toDouble_zero]
    simpa [Number.ofNat] using mathFloor_natCast 0

/-- C5. Quantizer end points: for every level count `L ≥ 2` (a finite number,
`L < 2 ^ 1023`) the index computed in the pixel loop for the white pixel
`(255,255,255)` is the number `level - 1`, which for `L ≤ 2 ^ 53` is exactly the
integer `L - 1`, the last table entry, and the index computed for the black
pixel `(0,0,0)` is 0, the first table entry. -/
theorem quantIndex_endpoints (L : ℕ) (hL : 2 ≤ L) (hfin : (L : ℚ) < (2 : ℚ) ^ 1023) :
    quantIndex (Number.ofNat L) (Number.ofNat 255) (Number.ofNat 255) (Number.ofNat 255) =
        (Number.ofNat L).sub (Number.fin 1) ∧
      (L ≤ 2 ^ 53 →
        quantIndex (Number.ofNat L) (Number.ofNat 255) (Number.ofNat 255) (Number.ofNat 255) =
          Number.ofNat (L - 1)) ∧
      quantIndex (Number.ofNat L) (Number.ofNat 0) (Number.ofNat 0) (Number.ofNat 0) =
        Number.ofNat 0 := by
  obtain ⟨hw, hb⟩ := quantIndex_white_black L hL hfin
  refine ⟨hw, fun h53 => ?_, hb⟩
  rw [hw, sub_one_natCast L (by omega) h53]
  rfl

/-- Witness for C5: `L = 5`. -/
theorem quantIndex_endpoints_witness :
    2 ≤ 5 ∧ ((5 : ℕ) : ℚ) < (2 : ℚ) ^ 1023 ∧
      quantIndex (Number.ofNat 5) (Number.ofNat 255) (Number.ofNat 255) (Number.ofNat 255) =
        (Number.ofNat 5).sub (Number.fin 1) ∧
      (5 ≤ 2 ^ 53 →
        quantIndex (Number.ofNat 5) (Number.ofNat 255) (Number.ofNat 255) (Number.ofNat 255) =
          Number.ofNat (5 - 1)) ∧
      quantIndex (Number.ofNat 5) (Number.ofNat 0) (Number.ofNat 0) (Number.ofNat 0) =
        Number.ofNat 0 :=
  ⟨by norm_num, natCast_lt_of_le 5 (by norm_num),
    quantIndex_endpoints 5 (by norm_num) (natCast_lt_of_le 5 (by norm_num))⟩

/-- Beyond `2 ^ 53` the number `level - 1` need not be the integer `L - 1`: for
`L = 2 ^ 53 + 4`, which binary64 holds exactly, `level - 1` rounds back to
`level`, and that is the index the white pixel is given. -/
theorem quantIndex_white_2p53 :
    quantIndex (Number.ofNat 9007199254740996) (Number.ofNat 255) (Number.ofNat 255)
        (Number.ofNat 255) = Number.ofNat 9007199254740996 := by
  · have hexact : roundQ 9007199254740996 = 9007199254740996 := by
      have := roundQ_dyadic 2251799813685249 2 (by norm_num) (by norm_num)
      norm_num at this
      exact this
    have htie : roundQ 9007199254740995 = 9007199254740996 := by
      rw [roundQ_of_log (e := 53) (by norm_num) (by norm_num) (by norm_num) (by norm_num)]
      have : rne (9007199254740995 / (2 : ℚ) ^ ((53 : ℤ) - 52)) = 4503599627370498 := by
        norm_num [rne, Int.fract]
      rw [this]; norm_num
    have hbig : (9007199254740996 : ℚ) < (2 : ℚ) ^ 1024 :=
      lt_of_lt_of_le (by norm_num : (9007199254740996 : ℚ) < (2 : ℚ) ^ 54)
        (pow_le_pow_right₀ (by norm_num) (by norm_num))
    have hs : (Number.ofNat 9007199254740996).sub (Number.fin 1) =
        Number.fin 9007199254740996 := by
      simp only [Number.sub, Number.ofNat, Number.neg, Number.add]
      have h : (((9007199254740996 : ℕ) : ℚ) + -1) = 9007199254740995 := by norm_num
      rw [h, toDouble_of_lt (by rw [htie]; linarith) (by rw [htie]; exact hbig), htie]
    have hm : (Number.fin 1).mul (Number.fin 9007199254740996) =
        Number.fin 9007199254740996 := by
      simp only [Number.mul, one_mul]
      rw [toDouble_of_lt (by rw [hexact]; linarith) (by rw [hexact]; exact hbig), hexact]
    simp only [quantIndex]
    rw [luminance_white, div_self_fin (by norm_num), hs, hm]
    exact mathFloor_natCast 9007199254740996

/-- C10. Index stays inside the table: for every level count `L ≥ 2` (a finite
number, `L < 2 ^ 1023`) and every pixel with channels in `[0, 255]`, the index
the pixel loop passes to `calculateGrayValue` is a natural number `k` with
`0 <= k <= level - 1` (so `k ≤ L - 1` when `L ≤ 2 ^ 53`), and the normalized
position `k / (level - 1)` computed from it is a finite number in `[0, 1]`. -/
theorem quantIndex_in_table (L r g b : ℕ) (hL : 2 ≤ L) (hfin : (L : ℚ) < (2 : ℚ) ^ 1023)
    (hr : r ≤ 255) (hg : g ≤ 255) (hb : b ≤ 255) :
    ∃ k : ℕ, quantIndex (Number.ofNat L) (Number.ofNat r) (Number.ofNat g) (Number.ofNat b) =
        Number.ofNat k ∧
      (Number.ofNat 0).le (Number.ofNat k) = true ∧
      (Number.ofNat k).le ((Number.ofNat L).sub (Number.fin 1)) = true ∧
      (L ≤ 2 ^ 53 → k ≤ L - 1) ∧
      ∃ x : ℚ, (Number.ofNat k).div ((Number.ofNat L).sub (Number.fin 1)) = Number.fin x ∧
        0 ≤ x ∧ x ≤ 1 := by
  obtain ⟨y, hy, hy0, hy1⟩ := luminance_bounded r g b hr hg hb
  obtain ⟨m, hsub, hidem, hlt, hm1, hm53⟩ := sub_one_finite L (by omega) hfin
  have hmpos : (0 : ℚ) < (m : ℚ) := by
    have : 1 ≤ m := hm1 hL
    exact_mod_cast this
  -- normalizedGray
  obtain ⟨ez, z0, z1⟩ := toDouble_bounded (q := y / 255) (n := 1) (div_nonneg hy0 (by norm_num))
    (by rw [div_le_iff₀ (by norm_num)]; push_cast; linarith) (by norm_num)
  push_cast at z1
  -- normalizedGray * (level - 1)
  have hzm0 : 0 ≤ roundQ (y / 255) * (m : ℚ) := mul_nonneg z0 hmpos.le
  have hzm1 : roundQ (y / 255) * (m : ℚ) ≤ (m : ℚ) := by
    have := mul_le_mul_of_nonneg_right z1 hmpos.le
    rwa [one_mul] at this
  have t0 : 0 ≤ roundQ (roundQ (y / 255) * (m : ℚ)) := roundQ_nonneg hzm0
  have t1 : roundQ (roundQ (y / 255) * (m : ℚ)) ≤ (m : ℚ) := by
    have := roundQ_mono hzm0 hzm1
    rwa [hidem] at this
  have et : toDouble (roundQ (y / 255) * (m : ℚ)) =
      Number.fin (roundQ (roundQ (y / 255) * (m : ℚ))) :=
    toDouble_of_lt (lt_of_lt_of_le (neg_neg_of_pos (by positivity)) t0)
      (lt_of_le_of_lt t1 hlt)
  set t := roundQ (roundQ (y / 255) * (m : ℚ)) with htdef
  have hf0 : 0 ≤ ⌊t⌋ := Int.floor_nonneg.mpr t0
  have hf1 : ⌊t⌋ ≤ (m : ℤ) := by
    have : (⌊t⌋ : ℚ) ≤ (m : ℚ) := le_trans (Int.floor_le t) t1
    exact_mod_cast this
  have hk : ((⌊t⌋.toNat : ℕ) : ℤ) = ⌊t⌋ := Int.toNat_of_nonneg hf0
  have hkq : ((⌊t⌋.toNat : ℕ) : ℚ) = ((⌊t⌋ : ℤ) : ℚ) :=
    calc ((⌊t⌋.toNat : ℕ) : ℚ) = (((⌊t⌋.toNat : ℕ) : ℤ) : ℚ) := (Int.cast_natCast _).symm
      _ = ((⌊t⌋ : ℤ) : ℚ) := by rw [hk]
  have hkle : ⌊t⌋.toNat ≤ m := by omega
  have hkq0 : (0 : ℚ) ≤ ((⌊t⌋.toNat : ℕ) : ℚ) := Nat.cast_nonneg _
  have hkq1 : ((⌊t⌋.toNat : ℕ) : ℚ) ≤ (m : ℚ) := by exact_mod_cast hkle
  refine ⟨⌊t⌋.toNat, ?_, ?_, ?_, ?_, ?_⟩
  · simp only [quantIndex]
    rw [hy, hsub]
    have hdiv : (Number.fin y).div (Number.fin 255) = Number.fin (roundQ (y / 255)) := by
      simp only [Number.div]
      rw [if_neg (by norm_num)]
      exact ez
    rw [hdiv]
    simp only [Number.mul]
    rw [et]
    simp only [mathFloor, Number.ofNat]
    rw [hkq]
  · simp [Number.le, Number.ofNat]
  · rw [hsub]
    simpa [Number.le, Number.ofNat] using hkq1
  · intro h53
    rw [hm53 h53] at hkle
    exact hkle
  · rw [hsub]
    obtain ⟨ex, x0, x1⟩ := toDouble_bounded (q := ((⌊t⌋.toNat : ℕ) : ℚ) / (m : ℚ)) (n := 1)
      (div_nonneg hkq0 hmpos.le) (by rw [div_le_iff₀ hmpos]; push_cast; linarith)
      (by norm_num)
    push_cast at x1
    refine ⟨_, ?_, x0, x1⟩
    simp only [Number.div, Number.ofNat]
    rw [if_neg hmpos.ne']
    exact ex

/-- Witness for C10: `L = 5` and the pixel `(200, 17, 255)`. -/
theorem quantIndex_in_table_witness :
    2 ≤ 5 ∧ ((5 : ℕ) : ℚ) < (2 : ℚ) ^ 1023 ∧ 200 ≤ 255 ∧ 17 ≤ 255 ∧ 255 ≤ 255 ∧
    ∃ k : ℕ, quantIndex (Number.ofNat 5) (Number.ofNat 200) (Number.ofNat 17)
        (Number.ofNat 255) = Number.ofNat k ∧
      (Number.ofNat 0).le (Number.ofNat k) = true ∧
      (Number.ofNat k).le ((Number.ofNat 5).sub (Number.fin 1)) = true ∧
      (5 ≤ 2 ^ 53 → k ≤ 5 - 1) ∧
      ∃ x : ℚ, (Number.ofNat k).div ((Number.ofNat 5).sub (Number.fin 1)) = Number.fin x ∧
        0 ≤ x ∧ x ≤ 1 :=
  ⟨by norm_num, natCast_lt_of_le 5 (by norm_num), by norm_num, by norm_num, by norm_num,
    quantIndex_in_table 5 200 17 255 (by norm_num) (natCast_lt_of_le 5 (by norm_num))
      (by norm_num) (by norm_num) (by norm_num)⟩

/-! ## The pixel loop -/

theorem pixelStep_length (E : ℚ → ℚ → Number) (currentColor : Option String)
    (level distribution : Number) (data : List ℕ) (i : ℕ) :
    (pixelStep E currentColor level distribution data i).length = data.length := by
  simp [pixelStep]

/-- One iteration leaves every byte outside `i, i + 1, i + 2` as it was. -/
theorem pixelStep_getElem?_other (E : ℚ → ℚ → Number) (currentColor : Option String)
    (level distribution : Number) (data : List ℕ) (i idx : ℕ)
    (h0 : idx ≠ i) (h1 : idx ≠ i + 1) (h2 : idx ≠ i + 2) :
    (pixelStep E currentColor level distribution data i)[idx]? = data[idx]? := by
  simp only [pixelStep]
  rw [List.getElem?_set_ne (Ne.symm h2), List.getElem?_set_ne (Ne.symm h1),
    List.getElem?_set_ne (Ne.symm h0)]

/-- One iteration stores the pixel colour in the three colour bytes. -/
theorem pixelStep_getElem?_colour (E : ℚ → ℚ → Number) (currentColor : Option String)
    (level distribution : Number) (data : List ℕ) (i : ℕ) (hi : i + 2 < data.length) :
    (pixelStep E currentColor level distribution data i)[i]? =
        some (pixelColour E currentColor level distribution
          (readByte data i) (readByte data (i + 1)) (readByte data (i + 2))).1 ∧
      (pixelStep E currentColor level distribution data i)[i + 1]? =
        some (pixelColour E currentColor level distribution
          (readByte data i) (readByte data (i + 1)) (readByte data (i + 2))).2.1 ∧
      (pixelStep E currentColor level distribution data i)[i + 2]? =
        some (pixelColour E currentColor level distribution
          (readByte data i) (readByte data (i + 1)) (readByte data (i + 2))).2.2 := by
  simp only [pixelStep]
  refine ⟨?_, ?_, ?_⟩
  · rw [List.getElem?_set_ne (by omega), List.getElem?_set_ne (by omega),
      List.getElem?_set_self (by omega)]
  · rw [List.getElem?_set_ne (by omega), List.getElem?_set_self (by simp; omega)]
  · rw [List.getElem?_set_self (by simp; omega)]

theorem readByte_congr {a b : List ℕ} {i : ℕ} (h : a[i]? = b[i]?) :
    readByte a i = readByte b i := by
  simp only [readByte, h]

/-- Loop invariant: entering the loop at offset `4 * j` with the pixels below
`j` done and the rest untouched, the loop ends with every pixel done. -/
theorem pixelLoop_invariant (E : ℚ → ℚ → Number) (currentColor : Option String)
    (level distribution : Number) (orig : List ℕ) (h4 : 4 ∣ orig.length) :
    ∀ (n j : ℕ) (data : List ℕ), orig.length ≤ 4 * j + 4 * n →
      data.length = orig.length →
      (∀ idx, 4 * j ≤ idx → data[idx]? = orig[idx]?) →
      (∀ k, k < j → PixelDone E currentColor level distribution orig data k) →
      (pixelLoop E currentColor level distribution data (4 * j)).length = orig.length ∧
        ∀ k, 4 * k + 3 < orig.length →
          PixelDone E currentColor level distribution orig
            (pixelLoop E currentColor level distribution data (4 * j)) k := by
  intro n
  induction n with
  | zero =>
    intro j data hn hlen _ hdone
    rw [pixelLoop, if_neg (by omega)]
    exact ⟨hlen, fun k hk => hdone k (by omega)⟩
  | succ n ih =>
    intro j data hn hlen hrest hdone
    by_cases hj : 4 * j < data.length
    · rw [pixelLoop, if_pos hj]
      obtain ⟨m, hm⟩ := h4
      have hj3 : 4 * j + 3 < data.length := by omega
      have hstep := ih (j + 1) (pixelStep E currentColor level distribution data (4 * j))
        (by omega) (by rw [pixelStep_length]; exact hlen)
        (fun idx hidx => by
          rw [pixelStep_getElem?_other _ _ _ _ _ _ _ (by omega) (by omega) (by omega)]
          exact hrest idx (by omega))
        (fun k hk => by
          rcases Nat.lt_succ_iff_lt_or_eq.mp hk with hlt | heq
          · obtain ⟨d0, d1, d2, d3⟩ := hdone k hlt
            refine ⟨?_, ?_, ?_, ?_⟩
            · rw [pixelStep_getElem?_other _ _ _ _ _ _ _ (by omega) (by omega) (by omega)]
              exact d0
            · rw [pixelStep_getElem?_other _ _ _ _ _ _ _ (by omega) (by omega) (by omega)]
              exact d1
            · rw [pixelStep_getElem?_other _ _ _ _ _ _ _ (by omega) (by omega) (by omega)]
              exact d2
            · rw [pixelStep_getElem?_other _ _ _ _ _ _ _ (by omega) (by omega) (by omega)]
              exact d3
          · subst heq
            obtain ⟨c0, c1, c2⟩ := pixelStep_getElem?_colour E currentColor level distribution
              data (4 * k) (by omega)
            rw [readByte_congr (hrest (4 * k) (by omega)),
              readByte_congr (hrest (4 * k + 1) (by omega)),
              readByte_congr (hrest (4 * k + 2) (by omega))] at c0 c1 c2
            refine ⟨?_, c0, c1, c2⟩
            rw [pixelStep_getElem?_other _ _ _ _ _ _ _ (by omega) (by omega) (by omega)]
            exact hrest _ (by omega))
      have h44 : 4 * (j + 1) = 4 * j + 4 := by ring
      rw [h44] at hstep
      exact hstep
    · rw [pixelLoop, if_neg hj]
      exact ⟨hlen, fun k hk => hdone k (by omega)⟩

theorem toUint8Clamp_natCast (v : ℕ) (hv : v ≤ 255) : toUint8Clamp (Number.ofNat v) = v := by
  simp only [toUint8Clamp, Number.ofNat]
  by_cases h0 : v = 0
  · subst h0; simp
  · have hpos : ¬ ((v : ℚ) ≤ 0) := by
      have : 0 < v := Nat.pos_of_ne_zero h0
      have : (0 : ℚ) < (v : ℚ) := by exact_mod_cast this
      linarith
    rw [if_neg hpos]
    by_cases h255 : (255 : ℚ) ≤ (v : ℚ)
    · rw [if_pos h255]
      have : 255 ≤ v := by exact_mod_cast h255
      omega
    · rw [if_neg h255]
      have := rne_intCast (v : ℤ)
      rw [Int.cast_natCast] at this
      rw [this]; simp

/-- C6. Per-pixel substitution with alpha preserved: for every RGBA buffer whose
length is a multiple of 4, the pixel loop of `processImage` returns a buffer of
the same length in which, for every pixel `k`, the alpha byte `4k + 3` is the
input alpha byte and the bytes `4k`, `4k + 1`, `4k + 2` are the stored form of
`calculateGrayValue(index_k, L, d)`, where `index_k` is computed from that
pixel's own input R, G, B; a table intensity that is an integer in `[0, 255]` is
stored unchanged. -/
theorem processImage_pixels (E : ℚ → ℚ → Number) (currentColor : Option String)
    (level distribution : Number) (data : List ℕ) (h4 : 4 ∣ data.length) :
    (processImage E currentColor true level distribution data).length = data.length ∧
      (∀ k, 4 * k + 3 < data.length →
        (processImage E currentColor true level distribution data)[4 * k + 3]? =
            data[4 * k + 3]? ∧
          ((processImage E currentColor true level distribution data)[4 * k]?,
            (processImage E currentColor true level distribution data)[4 * k + 1]?,
            (processImage E currentColor true level distribution data)[4 * k + 2]?) =
          (some (storedBytes (calculateGrayValue E currentColor
              (quantIndex level (readByte data (4 * k)) (readByte data (4 * k + 1))
                (readByte data (4 * k + 2))) level distribution)).1,
            some (storedBytes (calculateGrayValue E currentColor
              (quantIndex level (readByte data (4 * k)) (readByte data (4 * k + 1))
                (readByte data (4 * k + 2))) level distribution)).2.1,
            some (storedBytes (calculateGrayValue E currentColor
              (quantIndex level (readByte data (4 * k)) (readByte data (4 * k + 1))
                (readByte data (4 * k + 2))) level distribution)).2.2)) ∧
      (∀ v : ℕ, v ≤ 255 → storedBytes (Value.num (Number.ofNat v)) = (v, v, v)) ∧
      (∀ r g b : ℕ, r ≤ 255 → g ≤ 255 → b ≤ 255 →
        storedBytes (Value.arr (Number.ofNat r) (Number.ofNat g) (Number.ofNat b)) =
          (r, g, b)) := by
  have hinv := pixelLoop_invariant E currentColor level distribution data h4
    (data.length) 0 data (by omega) rfl (fun _ _ => rfl) (fun k hk => absurd hk (by omega))
  simp only [Nat.mul_zero] at hinv
  refine ⟨?_, ?_, ?_, ?_⟩
  · simp only [processImage, if_true]
    exact hinv.1
  · intro k hk
    simp only [processImage, if_true]
    obtain ⟨d0, d1, d2, d3⟩ := hinv.2 k hk
    exact ⟨d0, by rw [d1, d2, d3]; rfl⟩
  · intro v hv
    simp only [storedBytes, storedByte, toUint8Clamp_natCast v hv]
  · intro r g b hr hg hb
    simp only [storedBytes, toUint8Clamp_natCast r hr, toUint8Clamp_natCast g hg,
      toUint8Clamp_natCast b hb]

/-- Witness for C6: a two-pixel buffer, `L = 5`, `d = 0`, mode `'gray'`. -/
theorem processImage_pixels_witness :
    4 ∣ [10, 200, 30, 255, 0, 0, 0, 128].length ∧
      (processImage integralPow (some "gray") true (Number.ofNat 5) (Number.fin 0)
        [10, 200, 30, 255, 0, 0, 0, 128]).length = [10, 200, 30, 255, 0, 0, 0, 128].length ∧
      (∀ k, 4 * k + 3 < [10, 200, 30, 255, 0, 0, 0, 128].length →
        (processImage integralPow (some "gray") true (Number.ofNat 5) (Number.fin 0)
            [10, 200, 30, 255, 0, 0, 0, 128])[4 * k + 3]? =
            [10, 200, 30, 255, 0, 0, 0, 128][4 * k + 3]? ∧
          ((processImage integralPow (some "gray") true (Number.ofNat 5) (Number.fin 0)
              [10, 200, 30, 255, 0, 0, 0, 128])[4 * k]?,
            (processImage integralPow (some "gray") true (Number.ofNat 5) (Number.fin 0)
              [10, 200, 30, 255, 0, 0, 0, 128])[4 * k + 1]?,
            (processImage integralPow (some "gray") true (Number.ofNat 5) (Number.fin 0)
              [10, 200, 30, 255, 0, 0, 0, 128])[4 * k + 2]?) =
          (some (storedBytes (calculateGrayValue integralPow (some "gray")
              (quantIndex (Number.ofNat 5) (readByte [10, 200, 30, 255, 0, 0, 0, 128] (4 * k))
                (readByte [10, 200, 30, 255, 0, 0, 0, 128] (4 * k + 1))
                (readByte [10, 200, 30, 255, 0, 0, 0, 128] (4 * k + 2)))
              (Number.ofNat 5) (Number.fin 0))).1,
            some (storedBytes (calculateGrayValue integralPow (some "gray")
              (quantIndex (Number.ofNat 5) (readByte [10, 200, 30, 255, 0, 0, 0, 128] (4 * k))
                (readByte [10, 200, 30, 255, 0, 0, 0, 128] (4 * k + 1))
                (readByte [10, 200, 30, 255, 0, 0, 0, 128] (4 * k + 2)))
              (Number.ofNat 5) (Number.fin 0))).2.1,
            some (storedBytes (calculateGrayValue integralPow (some "gray")
              (quantIndex (Number.ofNat 5) (readByte [10, 200, 30, 255, 0, 0, 0, 128] (4 * k))
                (readByte [10, 200, 30, 255, 0, 0, 0, 128] (4 * k + 1))
                (readByte [10, 200, 30, 255, 0, 0, 0, 128] (4 * k + 2)))
              (Number.ofNat 5) (Number.fin 0))).2.2)) :=
  ⟨by decide,
    (processImage_pixels integralPow (some "gray") (Number.ofNat 5) (Number.fin 0)
      [10, 200, 30, 255, 0, 0, 0, 128] (by decide)).1,
    (processImage_pixels integralPow (some "gray") (Number.ofNat 5) (Number.fin 0)
      [10, 200, 30, 255, 0, 0, 0, 128] (by decide)).2.1⟩

/-! ## The intensity curve -/

/-- With distribution parameter 0 the power law disappears: the intensity is
`Math.round(i / (level - 1) * 255)`, whatever `i` and `level` are. -/
theorem intensity_linear (E : ℚ → ℚ → Number)
    (hE : ∀ b : ℚ, b ≠ 0 → E b 1 = Number.fin b) (i level : Number) :
    intensity E i level (Number.fin 0) =
      mathRound ((i.div (level.sub (Number.fin 1))).mul (Number.fin 255)) := by
  simp only [intensity]
  rw [mathPow_zero_exponent, mathPow_one_exponent E hE]

theorem updateGradientBar_getElem? (E : ℚ → ℚ → Number) (currentColor : Option String)
    (level : ℕ) (distribution : Number) (i : ℕ) (hi : i < level) :
    (updateGradientBar E currentColor level distribution)[i]? =
      some (swatch (calculateGrayValue E currentColor (Number.ofNat i) (Number.ofNat level)
        distribution)) := by
  simp [updateGradientBar, List.getElem?_range hi]

/-! ## Exactness of the linear table -/

/-- Rounding to the nearest integer moves a rational by at most one half. -/
theorem abs_rne_sub_le (z : ℚ) : |(rne z : ℚ) - z| ≤ 1 / 2 := by
  have h1 : (⌊z⌋ : ℚ) ≤ z := Int.floor_le z
  have h2 : z < (⌊z⌋ : ℚ) + 1 := Int.lt_floor_add_one z
  have hfr : Int.fract z = z - ⌊z⌋ := rfl
  unfold rne
  rw [abs_le]
  split_ifs with c1 c2 c3
  · rw [hfr] at c1; constructor <;> linarith
  · rw [hfr] at c2; push_cast; constructor <;> linarith
  · rw [hfr] at c1 c2; constructor <;> linarith
  · rw [hfr] at c1 c2; push_cast; constructor <;> linarith

/-- The absolute rounding error of a non-negative rational below `2 ^ (k + 1)`
is at most `2 ^ (k - 53)`, half a unit in the last place. -/
theorem roundQ_abs_err {q : ℚ} (hq : 0 ≤ q) (k : ℤ) (hk : -1022 ≤ k)
    (hqk : q < (2 : ℚ) ^ (k + 1)) : |roundQ q - q| ≤ (2 : ℚ) ^ (k - 53) := by
  rcases hq.eq_or_lt with h0 | hpos
  · rw [← h0]; simp [roundQ]; positivity
  have hlog : Int.log 2 q ≤ k := by
    have := (Int.lt_zpow_iff_log_lt (R := ℚ) (b := 2) (by norm_num) hpos (x := k + 1)).mp
      (by simpa using hqk)
    omega
  have hu : ulp q ≤ (2 : ℚ) ^ (k - 52) := by
    unfold ulp
    rw [abs_of_pos hpos]
    apply zpow_le_zpow_right₀ (by norm_num)
    have := max_le hlog hk
    omega
  have herr := abs_rne_sub_le (q / ulp q)
  have hval : roundQ q - q = ((rne (q / ulp q) : ℚ) - q / ulp q) * ulp q := by
    unfold roundQ
    rw [if_neg hpos.ne']
    field_simp [(ulp_pos q).ne']
  rw [hval, abs_mul, abs_of_pos (ulp_pos q)]
  have h53 : (2 : ℚ) ^ (k - 53) = 1 / 2 * (2 : ℚ) ^ (k - 52) := by
    rw [show k - 52 = (k - 53) + 1 by ring, zpow_add₀ (by norm_num), zpow_one]; ring
  rw [h53]
  exact mul_le_mul herr hu (ulp_pos q).le (by norm_num)

/-- Core of the tie case: if `q = (2k+1)/510` lies in the binade `[2^e, 2^(e+1))`
and `255 q = k + 1/2` is at least half a unit above `2^(e+8)`, then the product
`roundQ q * 255` rounds to exactly `k + 1/2`. -/
theorem tie_core (k : ℕ) (e : ℤ) (he1 : e ≤ -1) (he9 : -9 ≤ e)
    (hlo : (2 : ℚ) ^ e ≤ (2 * (k : ℚ) + 1) / 510)
    (hhi : (2 * (k : ℚ) + 1) / 510 < (2 : ℚ) ^ (e + 1))
    (hgap : 512 * (2 : ℚ) ^ e + 1 ≤ 2 * (k : ℚ) + 1) :
    roundQ (roundQ ((2 * (k : ℚ) + 1) / 510) * 255) = (k : ℚ) + 1 / 2 := by
  set q : ℚ := (2 * (k : ℚ) + 1) / 510 with hq
  set u : ℚ := (2 : ℚ) ^ e with hu
  have hupos : 0 < u := by positivity
  have hu_half : u ≤ 1 / 2 := by
    have : (2 : ℚ) ^ e ≤ (2 : ℚ) ^ (-1 : ℤ) := zpow_le_zpow_right₀ (by norm_num) he1
    simpa using this
  have e1 : (2 : ℚ) ^ (e + 1) = 2 * u := by
    rw [zpow_add₀ (by norm_num), zpow_one]; ring
  have e53 : (2 : ℚ) ^ (e - 53) = u / 2 ^ 53 := by
    rw [zpow_sub₀ (by norm_num)]; norm_num
  have e8 : (2 : ℚ) ^ (e + 8) = 256 * u := by
    rw [zpow_add₀ (by norm_num)]; norm_num; ring
  have e9 : (2 : ℚ) ^ (e + 8 + 1) = 512 * u := by
    rw [zpow_add₀ (by norm_num), zpow_add₀ (by norm_num)]; norm_num; ring
  have e44 : (2 : ℚ) ^ (e + 8 - 52) = u / 2 ^ 44 := by
    rw [show e + 8 - 52 = e - 44 by ring, zpow_sub₀ (by norm_num)]; norm_num
  rw [e1] at hhi
  have hqpos : 0 < q := lt_of_lt_of_le hupos hlo
  have hh : q * 255 = (k : ℚ) + 1 / 2 := by rw [hq]; ring
  -- the first rounding
  have herr := roundQ_abs_err hqpos.le e (by omega) (by rw [e1]; exact hhi)
  rw [e53, abs_le] at herr
  set x := roundQ q with hx
  -- the product lies in the binade of `k + 1/2`
  obtain ⟨herr1, herr2⟩ := herr
  have hz_lo : 256 * u ≤ x * 255 := by linarith
  have hz_hi : x * 255 < 512 * u := by linarith
  have hzpos : 0 < x * 255 := lt_of_lt_of_le (by positivity) hz_lo
  rw [roundQ_of_log (e := e + 8) hzpos (by rw [e8]; exact hz_lo) (by rw [e9]; exact hz_hi)
    (by omega), e44]
  -- `k + 1/2` is a multiple of the unit in the last place
  obtain ⟨m, hm⟩ : ∃ m : ℕ, (m : ℤ) = -e := ⟨(-e).toNat, by omega⟩
  have hum : u * (2 : ℚ) ^ m = 1 := by
    rw [hu, ← zpow_natCast, hm, ← zpow_add₀ (by norm_num)]; simp
  have hH : ((((2 * (k : ℤ) + 1) * 2 ^ 43 * 2 ^ m : ℤ)) : ℚ) * (u / 2 ^ 44) =
      (k : ℚ) + 1 / 2 := by
    push_cast
    linear_combination ((2 * (k : ℚ) + 1) / 2) * hum
  have hu44 : (0 : ℚ) < u / 2 ^ 44 := by positivity
  have hrne : rne (x * 255 / (u / 2 ^ 44)) = (2 * (k : ℤ) + 1) * 2 ^ 43 * 2 ^ m := by
    apply rne_unique
    · rw [lt_div_iff₀ hu44, sub_mul, hH]
      linarith
    · rw [div_lt_iff₀ hu44, add_mul, hH]
      linarith
  rw [hrne, hH]

/-- Tie case of the linear table: when `255 * (i / n)` is exactly `k + 1/2`, the
two binary64 roundings return exactly `k + 1/2`, so `Math.round` rounds up as the
exact value does. -/
theorem tie_round (k : ℕ) (hk : k ≤ 254) :
    roundQ (roundQ ((2 * (k : ℚ) + 1) / 510) * 255) = (k : ℚ) + 1 / 2 := by
  by_cases h0 : k = 0
  · subst h0
    have hx : roundQ ((2 * ((0 : ℕ) : ℚ) + 1) / 510) = 282578800148737 / 144115188075855872 := by
      rw [roundQ_of_log (e := -9) (by norm_num) (by norm_num) (by norm_num) (by norm_num)]
      norm_num [rne, Int.fract]
    rw [hx, roundQ_of_log (e := -2) (by norm_num) (by norm_num) (by norm_num) (by norm_num)]
    norm_num [rne, Int.fract]
  by_cases h127 : k = 127
  · subst h127
    have hx : roundQ ((2 * ((127 : ℕ) : ℚ) + 1) / 510) = 1 / 2 := by
      rw [roundQ_of_log (e := -1) (by norm_num) (by norm_num) (by norm_num) (by norm_num)]
      norm_num [rne, Int.fract]
    rw [hx, roundQ_of_log (e := 6) (by norm_num) (by norm_num) (by norm_num) (by norm_num)]
    norm_num [rne, Int.fract]
  have hkq : (k : ℚ) ≤ 254 := by exact_mod_cast hk
  have hk0 : (0 : ℚ) ≤ (k : ℚ) := Nat.cast_nonneg k
  have hqpos : (0 : ℚ) < (2 * (k : ℚ) + 1) / 510 := by positivity
  have hlo := zpow_log_le hqpos
  have hhi := lt_zpow_log_succ ((2 * (k : ℚ) + 1) / 510)
  have he1 : Int.log 2 ((2 * (k : ℚ) + 1) / 510) ≤ -1 := by
    have := (Int.lt_zpow_iff_log_lt (R := ℚ) (b := 2) (by norm_num) hqpos (x := 0)).mp
      (by rw [zpow_zero, div_lt_one (by norm_num)]; linarith)
    omega
  have he9 : -9 ≤ Int.log 2 ((2 * (k : ℚ) + 1) / 510) := by
    apply (Int.zpow_le_iff_le_log (R := ℚ) (b := 2) (by norm_num) hqpos).mp
    rw [le_div_iff₀ (by norm_num)]
    norm_num
    linarith
  generalize Int.log 2 ((2 * (k : ℚ) + 1) / 510) = e at hlo hhi he1 he9
  refine tie_core k e he1 he9 hlo hhi ?_
  -- `512 * 2 ^ e` is a power of two `P ≤ 256`, and `510 * P ≤ 512 * (2 k + 1)`
  obtain ⟨j, hj⟩ : ∃ j : ℕ, (j : ℤ) = e + 9 := ⟨(e + 9).toNat, by omega⟩
  have hj8 : j ≤ 8 := by omega
  have hP : 512 * (2 : ℚ) ^ e = ((2 ^ j : ℕ) : ℚ) := by
    have : (2 : ℚ) ^ e = (2 : ℚ) ^ (j : ℤ) * (2 : ℚ) ^ (-9 : ℤ) := by
      rw [← zpow_add₀ (by norm_num)]; congr 1; omega
    rw [this, zpow_natCast]; push_cast; norm_num; ring
  have hN : 510 * 2 ^ j ≤ 512 * (2 * k + 1) := by
    have h1 : (510 : ℚ) * (512 * (2 : ℚ) ^ e) ≤ 512 * (2 * (k : ℚ) + 1) := by
      rw [le_div_iff₀ (by norm_num)] at hlo
      linarith
    rw [hP] at h1
    exact_mod_cast h1
  have hle : 2 ^ j ≤ 256 := by
    calc 2 ^ j ≤ 2 ^ 8 := Nat.pow_le_pow_right (by norm_num) hj8
      _ = 256 := by norm_num
  have hgoal : 2 ^ j ≤ 2 * k := by
    rcases Nat.eq_zero_or_pos j with hj0 | hjpos
    · rw [hj0]; simp; omega
    · obtain ⟨j', rfl⟩ : ∃ j', j = j' + 1 := ⟨j - 1, by omega⟩
      rw [pow_succ] at hN hle ⊢
      omega
  rw [hP]
  have : ((2 ^ j : ℕ) : ℚ) ≤ 2 * (k : ℚ) := by exact_mod_cast hgoal
  linarith

/-- The two binary64 roundings of `i / n * 255` do not change its rounding to the
nearest integer, halves up: for `1 ≤ n ≤ 2 ^ 43` and `i ≤ n`,
`Math.round` of the computed product is `⌊255 i / n + 1/2⌋`. -/
theorem linear_exact (i n : ℕ) (hn : 1 ≤ n) (hn' : n ≤ 2 ^ 43) (hi : i ≤ n) :
    ⌊roundQ (roundQ ((i : ℚ) / n) * 255) + 1 / 2⌋ = ⌊255 * (i : ℚ) / n + 1 / 2⌋ := by
  have hN : (0 : ℚ) < (n : ℚ) := by exact_mod_cast hn
  have hNle : (n : ℚ) ≤ 2 ^ 43 := by exact_mod_cast hn'
  have hI0 : (0 : ℚ) ≤ (i : ℚ) := Nat.cast_nonneg i
  have hIN : (i : ℚ) ≤ (n : ℚ) := by exact_mod_cast hi
  have hq0 : (0 : ℚ) ≤ (i : ℚ) / n := div_nonneg hI0 hN.le
  have hq1 : (i : ℚ) / n ≤ 1 := by rw [div_le_one hN]; exact hIN
  -- the first rounding
  have hx0 : 0 ≤ roundQ ((i : ℚ) / n) := roundQ_nonneg hq0
  have hx1 : roundQ ((i : ℚ) / n) ≤ 1 := by
    have := roundQ_mono hq0 hq1
    have h11 : roundQ 1 = 1 := by simpa using roundQ_natCast 1 (by norm_num)
    rwa [h11] at this
  have hxe := roundQ_abs_err hq0 0 (by norm_num) (by norm_num; linarith)
  rw [abs_le] at hxe
  obtain ⟨hxe1, hxe2⟩ := hxe
  -- the second rounding
  have hz0 : 0 ≤ roundQ ((i : ℚ) / n) * 255 := by positivity
  have hze := roundQ_abs_err hz0 7 (by norm_num) (by norm_num; linarith)
  rw [abs_le] at hze
  obtain ⟨hze1, hze2⟩ := hze
  norm_num at hxe1 hxe2 hze1 hze2
  set x := roundQ ((i : ℚ) / n) with hxdef
  set y := roundQ (x * 255) with hydef
  -- the exact value, as a quotient of naturals
  have hT : 255 * (i : ℚ) / n + 1 / 2 = ((510 * i + n : ℕ) : ℚ) / (2 * n) := by
    push_cast; field_simp; ring
  obtain ⟨K, r, hdm, hmod⟩ : ∃ K r : ℕ, 2 * n * K + r = 510 * i + n ∧ r < 2 * n :=
    ⟨(510 * i + n) / (2 * n), (510 * i + n) % (2 * n), Nat.div_add_mod _ _,
      Nat.mod_lt _ (by omega)⟩
  have hTq : ((510 * i + n : ℕ) : ℚ) = 2 * n * K + r := by exact_mod_cast hdm.symm
  have h2n : (0 : ℚ) < 2 * (n : ℚ) := by positivity
  have hval : 255 * (i : ℚ) / n + 1 / 2 = (K : ℚ) + (r : ℚ) / (2 * n) := by
    rw [hT, hTq]; field_simp; ring
  have hr0 : (0 : ℚ) ≤ (r : ℚ) := Nat.cast_nonneg r
  have hr1 : (r : ℚ) + 1 ≤ 2 * (n : ℚ) := by exact_mod_cast hmod
  have hfrac1 : (r : ℚ) / (2 * n) ≤ 1 - 1 / (2 * n) := by
    rw [div_le_iff₀ h2n]; field_simp; linarith
  have hinv : (1 : ℚ) / 2 ^ 44 ≤ 1 / (2 * n) := by
    apply one_div_le_one_div_of_le h2n; linarith
  have hyt : y - 255 * (i : ℚ) / n = (y - x * 255) + 255 * (x - (i : ℚ) / n) := by ring
  -- the right-hand side is K
  have hrhs : ⌊255 * (i : ℚ) / n + 1 / 2⌋ = (K : ℤ) := by
    rw [Int.floor_eq_iff, hval]
    push_cast
    constructor
    · have : (0 : ℚ) ≤ (r : ℚ) / (2 * n) := div_nonneg hr0 h2n.le
      linarith
    · have : (0 : ℚ) < 1 / (2 * (n : ℚ)) := by positivity
      linarith
  rw [hrhs, Int.floor_eq_iff]
  push_cast
  constructor
  · -- lower bound
    rcases Nat.eq_zero_or_pos r with hr0' | hrpos
    · -- a tie: the exact value is `K`, i.e. `255 i / n = K - 1/2`
      have hnat : 510 * i + n = 2 * n * K := by rw [← hdm, hr0']; ring
      have hKpos : 1 ≤ K := by
        rcases Nat.eq_zero_or_pos K with h | h
        · rw [h] at hnat; omega
        · exact h
      obtain ⟨k, rfl⟩ : ∃ k, K = k + 1 := ⟨K - 1, by omega⟩
      have hk254 : k ≤ 254 := by
        by_contra hcon
        push_neg at hcon
        have : 2 * n * 256 ≤ 2 * n * (k + 1) := Nat.mul_le_mul_left _ (by omega)
        have : 510 * i ≤ 510 * n := Nat.mul_le_mul_left _ hi
        omega
      have hqk : (i : ℚ) / n = (2 * (k : ℚ) + 1) / 510 := by
        rw [div_eq_div_iff hN.ne' (by norm_num)]
        have : ((510 * i + n : ℕ) : ℚ) = ((2 * n * (k + 1) : ℕ) : ℚ) := by rw [hnat]
        push_cast at this
        linarith
      have := tie_round k hk254
      rw [← hqk] at this
      rw [hydef, hxdef, this]
      push_cast
      linarith
    · have hr1' : (1 : ℚ) ≤ (r : ℚ) := by exact_mod_cast hrpos
      have hfrac0 : 1 / (2 * (n : ℚ)) ≤ (r : ℚ) / (2 * n) :=
        div_le_div_of_nonneg_right hr1' h2n.le
      have hy' : 255 * (i : ℚ) / n - 383 / 2 ^ 53 ≤ y := by linarith
      have : (383 : ℚ) / 2 ^ 53 < 1 / 2 ^ 44 := by norm_num
      linarith
  · -- upper bound
    have hy' : y ≤ 255 * (i : ℚ) / n + 383 / 2 ^ 53 := by linarith
    have : (383 : ℚ) / 2 ^ 53 < 1 / 2 ^ 44 := by norm_num
    linarith

/-- The linear table in exact arithmetic: for `2 ≤ L ≤ 2 ^ 43` and `i ≤ L - 1`
the number `Math.round(i / (L - 1) * 255)` computed in binary64 is the integer
`⌊255 i / (L - 1) + 1/2⌋`. -/
theorem mathRound_linear_exact (L i : ℕ) (hL : 2 ≤ L) (hL43 : L ≤ 2 ^ 43) (hi : i ≤ L - 1) :
    mathRound (((Number.ofNat i).div ((Number.ofNat L).sub (Number.fin 1))).mul
        (Number.fin 255)) =
      Number.fin ((⌊255 * (i : ℚ) / ((L - 1 : ℕ) : ℚ) + 1 / 2⌋ : ℤ) : ℚ) := by
  have hn1 : 1 ≤ L - 1 := by omega
  have hn43 : L - 1 ≤ 2 ^ 43 := by omega
  have hN : (0 : ℚ) < ((L - 1 : ℕ) : ℚ) := by exact_mod_cast hn1
  have hq0 : (0 : ℚ) ≤ (i : ℚ) / ((L - 1 : ℕ) : ℚ) := div_nonneg (Nat.cast_nonneg i) hN.le
  have hq1 : (i : ℚ) / ((L - 1 : ℕ) : ℚ) ≤ ((1 : ℕ) : ℚ) := by
    rw [Nat.cast_one, div_le_one hN]; exact_mod_cast hi
  obtain ⟨hx, hx0, hx1⟩ := toDouble_bounded hq0 hq1 (by norm_num)
  have hz0 : 0 ≤ roundQ ((i : ℚ) / ((L - 1 : ℕ) : ℚ)) * 255 := by positivity
  have hz1 : roundQ ((i : ℚ) / ((L - 1 : ℕ) : ℚ)) * 255 ≤ ((255 : ℕ) : ℚ) := by
    push_cast at hx1 ⊢; linarith
  obtain ⟨hy, -, -⟩ := toDouble_bounded hz0 hz1 (by norm_num)
  rw [sub_one_natCast L (by omega) (by omega)]
  simp only [Number.ofNat, Number.div, if_neg hN.ne', hx, Number.mul, hy, mathRound]
  rw [linear_exact i (L - 1) hn1 hn43 hi]

/-- C1. Linear case: with distribution parameter 0 and colour mode `'gray'`,
`calculateGrayValue(i, L, 0)` is the number `Math.round(i / (L - 1) * 255)` for
every level count `L ≥ 2` and index `i ≤ L - 1`, and entry `i` of the preview
strip replicates that single intensity across R, G and B; for `L = 5` the five
intensities are 0, 64, 128, 191, 255, so `i = 2` gives 128, shown and stored as
`(128, 128, 128)`.  For `L ≤ 2 ^ 43` the two binary64 roundings are harmless: the
value is the integer `⌊255 i / (L - 1) + 1/2⌋` of exact arithmetic.  The engine is
assumed to return `x` for `Math.pow(x, 1)`. -/
theorem calculateGrayValue_linear (E : ℚ → ℚ → Number)
    (hE : ∀ b : ℚ, b ≠ 0 → E b 1 = Number.fin b) (L i : ℕ) (hL : 2 ≤ L) (hi : i ≤ L - 1) :
    calculateGrayValue E (some "gray") (Number.ofNat i) (Number.ofNat L) (Number.fin 0) =
        Value.num (mathRound (((Number.ofNat i).div ((Number.ofNat L).sub (Number.fin 1))).mul
          (Number.fin 255))) ∧
      (L ≤ 2 ^ 43 →
        calculateGrayValue E (some "gray") (Number.ofNat i) (Number.ofNat L) (Number.fin 0) =
          Value.num (Number.fin ((⌊255 * (i : ℚ) / ((L - 1 : ℕ) : ℚ) + 1 / 2⌋ : ℤ) : ℚ))) ∧
      (updateGradientBar E (some "gray") L (Number.fin 0))[i]? =
        some (Value.num (mathRound (((Number.ofNat i).div
            ((Number.ofNat L).sub (Number.fin 1))).mul (Number.fin 255))),
          Value.num (mathRound (((Number.ofNat i).div
            ((Number.ofNat L).sub (Number.fin 1))).mul (Number.fin 255))),
          Value.num (mathRound (((Number.ofNat i).div
            ((Number.ofNat L).sub (Number.fin 1))).mul (Number.fin 255)))) ∧
      (List.range 5).map (fun k => calculateGrayValue E (some "gray") (Number.ofNat k)
          (Number.ofNat 5) (Number.fin 0)) =
        [Value.num (Number.fin 0), Value.num (Number.fin 64), Value.num (Number.fin 128),
          Value.num (Number.fin 191), Value.num (Number.fin 255)] ∧
      (updateGradientBar E (some "gray") 5 (Number.fin 0))[2]? =
        some (Value.num (Number.fin 128), Value.num (Number.fin 128),
          Value.num (Number.fin 128)) ∧
      storedBytes (calculateGrayValue E (some "gray") (Number.ofNat 2) (Number.ofNat 5)
        (Number.fin 0)) = (128, 128, 128) := by
  have hgen : ∀ k n : ℕ,
      calculateGrayValue E (some "gray") (Number.ofNat k) (Number.ofNat n) (Number.fin 0) =
        Value.num (mathRound (((Number.ofNat k).div ((Number.ofNat n).sub (Number.fin 1))).mul
          (Number.fin 255))) := by
    intro k n
    simp only [calculateGrayValue, if_true]
    rw [intensity_linear E hE]
  obtain ⟨t0, t1, t2, t3, t4⟩ := linear_table_five
  have e0 := hgen 0 5
  have e1 := hgen 1 5
  have e2 := hgen 2 5
  have e3 := hgen 3 5
  have e4 := hgen 4 5
  rw [t0] at e0
  rw [t1] at e1
  rw [t2] at e2
  rw [t3] at e3
  rw [t4] at e4
  refine ⟨hgen i L, ?_, ?_, ?_, ?_, ?_⟩
  · intro h43
    rw [hgen, mathRound_linear_exact L i hL h43 hi]
  · rw [updateGradientBar_getElem? E _ L _ i (by omega), hgen]
    rfl
  · simp only [List.range, List.range.loop, List.map]
    rw [e0, e1, e2, e3, e4]
  · rw [updateGradientBar_getElem? E _ 5 _ 2 (by norm_num), e2]
    rfl
  · rw [e2]
    simpa [Number.ofNat] using (show storedBytes (Value.num (Number.ofNat 128)) = (128, 128, 128)
      by simp only [storedBytes, storedByte, toUint8Clamp_natCast 128 (by norm_num)])

/-- Witness for C1: the reference engine, `L = 5`, `i = 3`. -/
theorem calculateGrayValue_linear_witness :
    (∀ b : ℚ, b ≠ 0 → integralPow b 1 = Number.fin b) ∧ 2 ≤ 5 ∧ 3 ≤ 5 - 1 ∧
      calculateGrayValue integralPow (some "gray") (Number.ofNat 3) (Number.ofNat 5)
          (Number.fin 0) =
        Value.num (mathRound (((Number.ofNat 3).div ((Number.ofNat 5).sub (Number.fin 1))).mul
          (Number.fin 255))) ∧
      calculateGrayValue integralPow (some "gray") (Number.ofNat 3) (Number.ofNat 5)
          (Number.fin 0) =
        Value.num (Number.fin ((⌊255 * ((3 : ℕ) : ℚ) / ((5 - 1 : ℕ) : ℚ) + 1 / 2⌋ : ℤ) : ℚ)) ∧
      (updateGradientBar integralPow (some "gray") 5 (Number.fin 0))[2]? =
        some (Value.num (Number.fin 128), Value.num (Number.fin 128),
          Value.num (Number.fin 128)) :=
  ⟨fun b _ => integralPow_one b, by norm_num, by norm_num,
    (calculateGrayValue_linear integralPow (fun b _ => integralPow_one b) 5 3 (by norm_num)
      (by norm_num)).1,
    (calculateGrayValue_linear integralPow (fun b _ => integralPow_one b) 5 3 (by norm_num)
      (by norm_num)).2.1 (by norm_num),
    (calculateGrayValue_linear integralPow (fun b _ => integralPow_one b) 5 3 (by norm_num)
      (by norm_num)).2.2.2.2.1⟩

/-- C7. Level navigation clamps: from the constructor state (catalog
`[5,10,15,20,25]`, index 1), after any finite sequence of `changeLevel` calls
the index lies in `[0, 4]` and the current level is a member of the catalog;
from every such state `changeLevel(+1)` adds exactly 1 to the index unless it is 4,
where it stays 4, and `changeLevel(-1)` subtracts exactly 1 unless it is 0, where
it stays 0 (no wraparound; the function is total, so no error). -/
theorem changeLevel_clamps (directions : List ℤ) :
    (0 ≤ (changeLevels constructorState directions).currentLevelIndex ∧
      (changeLevels constructorState directions).currentLevelIndex ≤ 4) ∧
    (∃ l, currentLevel (changeLevels constructorState directions) = some l ∧
      l ∈ [5, 10, 15, 20, 25]) ∧
    (changeLevel (changeLevels constructorState directions) 1).currentLevelIndex =
      (if (changeLevels constructorState directions).currentLevelIndex = 4 then 4
       else (changeLevels constructorState directions).currentLevelIndex + 1) ∧
    (changeLevel (changeLevels constructorState directions) (-1)).currentLevelIndex =
      (if (changeLevels constructorState directions).currentLevelIndex = 0 then 0
       else (changeLevels constructorState directions).currentLevelIndex - 1) := by
  have hlev := changeLevels_levels constructorState directions
  have hr := changeLevels_range constructorState directions (by decide) (by decide) (by decide)
  have hlen : ((constructorState.levels.length : ℕ) : ℤ) - 1 = 4 := by decide
  rw [hlen] at hr
  obtain ⟨h0, h4⟩ := hr
  generalize changeLevels constructorState directions = s at hlev h0 h4 ⊢
  obtain ⟨levels, idx⟩ := s
  simp only at hlev h0 h4
  subst hlev
  refine ⟨⟨h0, h4⟩, ?_, ?_, ?_⟩
  · simp only [currentLevel, if_pos h0]
    interval_cases idx <;> simp [constructorState]
  · simp only [changeLevel, constructorState, List.length_cons, List.length_nil]
    split_ifs <;> omega
  · simp only [changeLevel, constructorState, List.length_cons, List.length_nil]
    split_ifs <;> omega

/-! ## Degenerate level count -/

/-- With level count 1 the division by `level - 1 = 0` gives NaN at index 0 and
`+Infinity` above it, and the power law and the rounding pass both on. -/
theorem intensity_degenerate (E : ℚ → ℚ → Number) (d : Number) (p : ℚ)
    (hp : mathPow E (Number.fin 2) d = Number.fin p) (hpos : 0 < p) (i : ℕ) :
    intensity E (Number.ofNat 0) (Number.ofNat 1) d = Number.nan ∧
      intensity E (Number.ofNat (i + 1)) (Number.ofNat 1) d = Number.posInf := by
  have hsub : (Number.ofNat 1).sub (Number.fin 1) = Number.fin 0 := by
    simpa using sub_one_natCast 1 (le_refl 1) (by norm_num)
  have hi : ¬ ((i : ℚ) + 1 < 0) := by
    have : (0 : ℚ) ≤ (i : ℚ) := by positivity
    linarith
  have hi' : ((i : ℚ) + 1) ≠ 0 := by
    have : (0 : ℚ) ≤ (i : ℚ) := by positivity
    linarith
  constructor
  · simp only [intensity]
    rw [hsub, hp]
    have hx : (Number.ofNat 0).div (Number.fin 0) = Number.nan := by
      simp [Number.div, Number.ofNat]
    rw [hx, mathPow_nan_base E hpos.ne']
    rfl
  · simp only [intensity]
    rw [hsub, hp]
    have hx : (Number.ofNat (i + 1)).div (Number.fin 0) = Number.posInf := by
      simp [Number.div, Number.ofNat, Number.inf, hi, hi']
    rw [hx, mathPow_posInf_base E hpos]
    have hm : Number.posInf.mul (Number.fin 255) = Number.posInf := by decide
    rw [hm]
    rfl

theorem mathPow_two_zero (E : ℚ → ℚ → Number) :
    mathPow E (Number.fin 2) (Number.fin 0) = Number.fin 1 :=
  mathPow_zero_exponent E _

/-- C8 (amended). For level count 1 nothing is rejected: whenever the power
`Math.pow(2, d)` is a positive finite number, `calculateGrayValue` returns NaN
at index 0 and `+Infinity` at every index `i + 1 ≥ 1` (mode `'gray'`). -/
theorem calculateGrayValue_level_one (E : ℚ → ℚ → Number) (d : Number) (p : ℚ)
    (hp : mathPow E (Number.fin 2) d = Number.fin p) (hpos : 0 < p) (i : ℕ) :
    calculateGrayValue E (some "gray") (Number.ofNat 0) (Number.ofNat 1) d =
        Value.num Number.nan ∧
      calculateGrayValue E (some "gray") (Number.ofNat (i + 1)) (Number.ofNat 1) d =
        Value.num Number.posInf := by
  obtain ⟨h0, h1⟩ := intensity_degenerate E d p hp hpos i
  simp only [calculateGrayValue, if_true, h0, h1, and_self]

/-- Witness for C8: the reference engine and `d = 1`, whose power is 2. -/
theorem calculateGrayValue_level_one_witness :
    mathPow integralPow (Number.fin 2) (Number.fin 1) = Number.fin 2 ∧ (0 : ℚ) < 2 ∧
      calculateGrayValue integralPow (some "gray") (Number.ofNat 0) (Number.ofNat 1)
        (Number.fin 1) = Value.num Number.nan ∧
      calculateGrayValue integralPow (some "gray") (Number.ofNat (2 + 1)) (Number.ofNat 1)
        (Number.fin 1) = Value.num Number.posInf :=
  ⟨integralPow_two_one, by norm_num,
    calculateGrayValue_level_one integralPow (Number.fin 1) 2 integralPow_two_one
      (by norm_num) 2⟩

/-- Counterexample to C8 as stated: `calculateGrayValue(0, 1, 0)` in mode
`'gray'` returns NaN. -/
theorem calculateGrayValue_level_one_nan :
    calculateGrayValue integralPow (some "gray") (Number.ofNat 0) (Number.ofNat 1)
      (Number.fin 0) = Value.num Number.nan := by
  have h := (intensity_degenerate integralPow (Number.fin 0) 1 (mathPow_two_zero integralPow)
    (by norm_num) 0).1
  simp only [calculateGrayValue, if_true, h]

/-! ## Channel mapping -/

/-- Channel mapping for the modes the page offers, for the unset mode and for
every other string that is not an inherited property name. -/
theorem calculateGrayValue_channels (E : ℚ → ℚ → Number) (i level d : Number) :
    calculateGrayValue E (some "red") i level d =
        Value.arr (intensity E i level d) (Number.fin 0) (Number.fin 0) ∧
      calculateGrayValue E (some "green") i level d =
        Value.arr (Number.fin 0) (intensity E i level d) (Number.fin 0) ∧
      calculateGrayValue E (some "blue") i level d =
        Value.arr (Number.fin 0) (Number.fin 0) (intensity E i level d) ∧
      calculateGrayValue E (some "gray") i level d = Value.num (intensity E i level d) ∧
      calculateGrayValue E none i level d =
        Value.arr (intensity E i level d) (intensity E i level d) (intensity E i level d) ∧
      ∀ s : String, s ∉ ["gray", "red", "green", "blue"] → s ∉ objectPrototypeKeys →
        calculateGrayValue E (some s) i level d =
          Value.arr (intensity E i level d) (intensity E i level d) (intensity E i level d) := by
  refine ⟨?_, ?_, ?_, ?_, ?_, ?_⟩
  · simp [calculateGrayValue, colorsLookup, propertyKey]
  · simp [calculateGrayValue, colorsLookup, propertyKey]
  · simp [calculateGrayValue, colorsLookup, propertyKey]
  · simp [calculateGrayValue]
  · simp [calculateGrayValue, colorsLookup, propertyKey, objectPrototypeKeys]
  · intro s hs hk
    simp only [List.mem_cons, List.mem_singleton, not_or, List.mem_nil_iff, or_false] at hs
    obtain ⟨h1, h2, h3, h4⟩ := hs
    simp [calculateGrayValue, colorsLookup, propertyKey, h1, h2, h3, h4, hk]

/-- C4 (failing input). When the mode is `'constructor'`, a property every
object literal inherits, `colors[this.currentColor]` is truthy and
`calculateGrayValue` returns that inherited member instead of `[v, v, v]`: the
preview swatch gets no number at all and the quantizer stores `(0, 0, 0)`. -/
theorem calculateGrayValue_constructor_key (E : ℚ → ℚ → Number) (i level d : Number) :
    calculateGrayValue E (some "constructor") i level d = Value.inherited "constructor" ∧
      swatch (Value.inherited "constructor") =
        (Value.inherited "constructor", Value.inherited "constructor",
          Value.inherited "constructor") ∧
      storedBytes (Value.inherited "constructor") = (0, 0, 0) := by
  refine ⟨?_, rfl, rfl⟩
  simp [calculateGrayValue, colorsLookup, propertyKey, objectPrototypeKeys]


/-! ## The claims about the table -/

/-- C2 (amended). Boundary entries: for every level count `L ≥ 2` (a finite
number, `L < 2 ^ 1023`) and every distribution parameter `d` whose power
`Math.pow(2, d)` is a positive finite number `p`, the intensity at index 0 is 0,
and the intensity at index `level - 1` is 255 when the engine's `Math.pow(1, p)`
is 1; so for `L ≤ 2 ^ 53`, in mode `'gray'`, the first table entry is `(0,0,0)`
and the last, entry `L - 1`, is `(255,255,255)`. -/
theorem intensity_boundary (E : ℚ → ℚ → Number) (L : ℕ) (d : Number) (p : ℚ)
    (hL : 2 ≤ L) (hfin : (L : ℚ) < (2 : ℚ) ^ 1023)
    (hp : mathPow E (Number.fin 2) d = Number.fin p)
    (hpos : 0 < p) (hone : E 1 p = Number.fin 1) :
    intensity E (Number.ofNat 0) (Number.ofNat L) d = Number.fin 0 ∧
      intensity E ((Number.ofNat L).sub (Number.fin 1)) (Number.ofNat L) d = Number.fin 255 ∧
      (updateGradientBar E (some "gray") L d)[0]? =
        some (Value.num (Number.fin 0), Value.num (Number.fin 0), Value.num (Number.fin 0)) ∧
      (L ≤ 2 ^ 53 →
        intensity E (Number.ofNat (L - 1)) (Number.ofNat L) d = Number.fin 255 ∧
        (updateGradientBar E (some "gray") L d)[L - 1]? =
          some (Value.num (Number.fin 255), Value.num (Number.fin 255),
            Value.num (Number.fin 255))) := by
  have h0 := intensity_first E L d p hL hfin hp hpos
  have h1 := intensity_last E L d p hL hfin hp hpos hone
  refine ⟨h0, h1, ?_, fun h53 => ?_⟩
  · rw [updateGradientBar_getElem? E _ L d 0 (by omega)]
    simp only [calculateGrayValue, if_true, h0, swatch]
  · rw [sub_one_natCast L (by omega) h53] at h1
    change intensity E (Number.ofNat (L - 1)) (Number.ofNat L) d = Number.fin 255 at h1
    refine ⟨h1, ?_⟩
    rw [updateGradientBar_getElem? E _ L d (L - 1) (by omega)]
    simp only [calculateGrayValue, if_true, h1, swatch]

/-- Witness for C2: the reference engine, `L = 5` and `d = 1`, whose power is 2. -/
theorem intensity_boundary_witness :
    2 ≤ 5 ∧ ((5 : ℕ) : ℚ) < (2 : ℚ) ^ 1023 ∧
      mathPow integralPow (Number.fin 2) (Number.fin 1) = Number.fin 2 ∧
      (0 : ℚ) < 2 ∧ integralPow 1 2 = Number.fin 1 ∧
      intensity integralPow (Number.ofNat 0) (Number.ofNat 5) (Number.fin 1) = Number.fin 0 ∧
      intensity integralPow ((Number.ofNat 5).sub (Number.fin 1)) (Number.ofNat 5)
        (Number.fin 1) = Number.fin 255 ∧
      (updateGradientBar integralPow (some "gray") 5 (Number.fin 1))[0]? =
        some (Value.num (Number.fin 0), Value.num (Number.fin 0), Value.num (Number.fin 0)) ∧
      (5 ≤ 2 ^ 53 →
        intensity integralPow (Number.ofNat (5 - 1)) (Number.ofNat 5) (Number.fin 1) =
          Number.fin 255 ∧
        (updateGradientBar integralPow (some "gray") 5 (Number.fin 1))[5 - 1]? =
          some (Value.num (Number.fin 255), Value.num (Number.fin 255),
            Value.num (Number.fin 255))) :=
  ⟨by norm_num, natCast_lt_of_le 5 (by norm_num), integralPow_two_one, by norm_num,
    integralPow_one_two,
    intensity_boundary integralPow 5 (Number.fin 1) 2 (by norm_num)
      (natCast_lt_of_le 5 (by norm_num)) integralPow_two_one (by norm_num)
      integralPow_one_two⟩

/-- Counterexample to C2 as stated: with `d = 1024` the power `2 ^ d` overflows
to `+Infinity`, `Math.pow(1, Infinity)` is NaN, and the last of 5 entries is NaN,
not 255; with `d = -1080` the power underflows to 0, `Math.pow(0, 0)` is 1, and
the first entry is 255, not 0. -/
theorem intensity_boundary_fails :
    calculateGrayValue integralPow (some "gray") (Number.ofNat 4) (Number.ofNat 5)
        (Number.fin 1024) = Value.num Number.nan ∧
      calculateGrayValue integralPow (some "gray") (Number.ofNat 0) (Number.ofNat 5)
        (Number.fin (-1080)) = Value.num (Number.fin 255) := by
  simp only [calculateGrayValue, if_true, intensity_d1024, intensity_underflow, and_self]

/-- C3 (amended). Monotonicity: for every level count `L ≥ 2` (a finite number,
`L < 2 ^ 1023`) and every distribution parameter `d` whose power
`p = Math.pow(2, d)` is a positive finite number at which the engine's
`Math.pow(·, p)` is non-negative and non-decreasing on `(0, 1]`, the intensity
computed by `calculateGrayValue` is non-decreasing in the index:
`intensity(i) <= intensity(j)` for all indices `i ≤ j` with `j <= level - 1`. -/
theorem intensity_monotone (E : ℚ → ℚ → Number) (L : ℕ) (d : Number) (p : ℚ)
    (hL : 2 ≤ L) (hfin : (L : ℚ) < (2 : ℚ) ^ 1023)
    (hp : mathPow E (Number.fin 2) d = Number.fin p) (hpos : 0 < p)
    (hmono : ∀ a b : ℚ, 0 < a → a ≤ b → b ≤ 1 →
      ∃ u v : ℚ, E a p = Number.fin u ∧ E b p = Number.fin v ∧ 0 ≤ u ∧ u ≤ v)
    (i j : ℕ) (hij : i ≤ j)
    (hj : (Number.ofNat j).le ((Number.ofNat L).sub (Number.fin 1)) = true) :
    (intensity E (Number.ofNat i) (Number.ofNat L) d).le
      (intensity E (Number.ofNat j) (Number.ofNat L) d) = true :=
  intensity_mono E L d p hL hfin hp hpos hmono i j hij hj

/-- Witness for C3: the reference engine, `L = 5`, `d = 1` (a quadratic curve),
`i = 1` and `j = 3`. -/
theorem intensity_monotone_witness :
    2 ≤ 5 ∧ ((5 : ℕ) : ℚ) < (2 : ℚ) ^ 1023 ∧
      mathPow integralPow (Number.fin 2) (Number.fin 1) = Number.fin 2 ∧
      (0 : ℚ) < 2 ∧ 1 ≤ 3 ∧
      (Number.ofNat 3).le ((Number.ofNat 5).sub (Number.fin 1)) = true ∧
      (intensity integralPow (Number.ofNat 1) (Number.ofNat 5) (Number.fin 1)).le
        (intensity integralPow (Number.ofNat 3) (Number.ofNat 5) (Number.fin 1)) = true :=
  ⟨by norm_num, natCast_lt_of_le 5 (by norm_num), integralPow_two_one, by norm_num,
    by norm_num, le_sub_one_natCast 5 3 (by norm_num) (by norm_num) (by norm_num),
    intensity_monotone integralPow 5 (Number.fin 1) 2 (by norm_num)
      (natCast_lt_of_le 5 (by norm_num)) integralPow_two_one (by norm_num)
      integralPow_square_mono 1 3 (by norm_num)
      (le_sub_one_natCast 5 3 (by norm_num) (by norm_num) (by norm_num))⟩

/-- Counterexample to C3 as stated: with `L = 5` and `d = 1024` the comparison
`intensity(3) <= intensity(4)` is false, the last intensity being NaN. -/
theorem intensity_monotone_fails :
    (intensity integralPow (Number.ofNat 3) (Number.ofNat 5) (Number.fin 1024)).le
      (intensity integralPow (Number.ofNat 4) (Number.ofNat 5) (Number.fin 1024)) = false := by
  rw [intensity_d1024]
  exact le_nan_right _

/-! ## Re-quantization -/

/-- The pixel loop on a one-pixel buffer. -/
theorem processImage_single (E : ℚ → ℚ → Number) (currentColor : Option String)
    (level distribution : Number) (r g b a : ℕ) :
    processImage E currentColor true level distribution [r, g, b, a] =
      [(pixelColour E currentColor level distribution (Number.ofNat r) (Number.ofNat g)
          (Number.ofNat b)).1,
        (pixelColour E currentColor level distribution (Number.ofNat r) (Number.ofNat g)
          (Number.ofNat b)).2.1,
        (pixelColour E currentColor level distribution (Number.ofNat r) (Number.ofNat g)
          (Number.ofNat b)).2.2, a] := by
  simp only [processImage, if_true]
  rw [pixelLoop, if_pos (by simp), pixelLoop, if_neg (by simp [pixelStep])]
  simp [pixelStep, readByte]

/-- Whatever the mode, intensity 0 is stored as `(0, 0, 0)`. -/
theorem storedBytes_zero (E : ℚ → ℚ → Number) (currentColor : Option String)
    (i level d : Number) (h : intensity E i level d = Number.fin 0) :
    storedBytes (calculateGrayValue E currentColor i level d) = (0, 0, 0) := by
  simp only [calculateGrayValue, h, colorsLookup]
  split_ifs <;> simp [storedBytes, storedByte, toUint8Clamp]

/-- C9 (amended). Re-quantization is stable on the two end colours: for every
level count `L ≥ 2` (a finite number, `L < 2 ^ 1023`) and every distribution
parameter whose power `p = Math.pow(2, d)` is a positive finite number, the
pixel loop writes a black pixel `(0,0,0)`, the colour of table entry 0, back
unchanged in every mode, and, when `Math.pow(1, p)` is 1, writes a white pixel
`(255,255,255)`, the colour of the table entry at index `level - 1` in mode
`'gray'`, back unchanged in mode `'gray'`. -/
theorem requantize_endpoints (E : ℚ → ℚ → Number) (currentColor : Option String) (L : ℕ)
    (d : Number) (p : ℚ) (a : ℕ) (hL : 2 ≤ L) (hfin : (L : ℚ) < (2 : ℚ) ^ 1023)
    (hp : mathPow E (Number.fin 2) d = Number.fin p) (hpos : 0 < p)
    (hone : E 1 p = Number.fin 1) :
    storedBytes (calculateGrayValue E currentColor (Number.ofNat 0) (Number.ofNat L) d) =
        (0, 0, 0) ∧
      processImage E currentColor true (Number.ofNat L) d [0, 0, 0, a] = [0, 0, 0, a] ∧
      storedBytes (calculateGrayValue E (some "gray") ((Number.ofNat L).sub (Number.fin 1))
        (Number.ofNat L) d) = (255, 255, 255) ∧
      processImage E (some "gray") true (Number.ofNat L) d [255, 255, 255, a] =
        [255, 255, 255, a] := by
  have h0 := intensity_first E L d p hL hfin hp hpos
  have h1 := intensity_last E L d p hL hfin hp hpos hone
  obtain ⟨hw, hb⟩ := quantIndex_white_black L hL hfin
  have e0 := storedBytes_zero E currentColor (Number.ofNat 0) (Number.ofNat L) d h0
  have e1 : storedBytes (calculateGrayValue E (some "gray")
      ((Number.ofNat L).sub (Number.fin 1)) (Number.ofNat L) d) = (255, 255, 255) := by
    simp only [calculateGrayValue, if_true, h1]
    simpa [Number.ofNat] using (show storedBytes (Value.num (Number.ofNat 255)) = (255, 255, 255)
      by simp only [storedBytes, storedByte, toUint8Clamp_natCast 255 (le_refl _)])
  refine ⟨e0, ?_, e1, ?_⟩
  · rw [processImage_single]
    simp only [pixelColour, hb, e0]
  · rw [processImage_single]
    simp only [pixelColour, hw, e1]

/-- Witness for C9: the reference engine, mode `'red'` for the black pixel,
`L = 5`, `d = 1` and alpha 77. -/
theorem requantize_endpoints_witness :
    2 ≤ 5 ∧ ((5 : ℕ) : ℚ) < (2 : ℚ) ^ 1023 ∧
      mathPow integralPow (Number.fin 2) (Number.fin 1) = Number.fin 2 ∧
      (0 : ℚ) < 2 ∧ integralPow 1 2 = Number.fin 1 ∧
      storedBytes (calculateGrayValue integralPow (some "red") (Number.ofNat 0) (Number.ofNat 5)
        (Number.fin 1)) = (0, 0, 0) ∧
      processImage integralPow (some "red") true (Number.ofNat 5) (Number.fin 1) [0, 0, 0, 77] =
        [0, 0, 0, 77] ∧
      storedBytes (calculateGrayValue integralPow (some "gray")
        ((Number.ofNat 5).sub (Number.fin 1)) (Number.ofNat 5) (Number.fin 1)) =
          (255, 255, 255) ∧
      processImage integralPow (some "gray") true (Number.ofNat 5) (Number.fin 1)
        [255, 255, 255, 77] = [255, 255, 255, 77] :=
  ⟨by norm_num, natCast_lt_of_le 5 (by norm_num), integralPow_two_one, by norm_num,
    integralPow_one_two,
    requantize_endpoints integralPow (some "red") 5 (Number.fin 1) 2 77 (by norm_num)
      (natCast_lt_of_le 5 (by norm_num)) integralPow_two_one (by norm_num)
      integralPow_one_two⟩

/-- Counterexample to C9 as stated: with `L = 5`, `d = 0` and mode `'gray'`
table entry 3 is 191, yet the pixel `(191,191,191)` is rewritten to
`(128,128,128)`, the colour of entry 2. -/
theorem requantize_191 :
    calculateGrayValue integralPow (some "gray") (Number.ofNat 3) (Number.ofNat 5)
        (Number.fin 0) = Value.num (Number.fin 191) ∧
      processImage integralPow (some "gray") true (Number.ofNat 5) (Number.fin 0)
        [191, 191, 191, 255] = [128, 128, 128, 255] := by
  obtain ⟨_, _, t2, t3, _⟩ := linear_table_five
  have hlin := intensity_linear integralPow (fun b _ => integralPow_one b)
  constructor
  · simp only [calculateGrayValue, if_true]
    rw [hlin, t3]
  · have h128 : storedBytes (Value.num (Number.fin 128)) = (128, 128, 128) := by
      simpa [Number.ofNat] using
        (show storedBytes (Value.num (Number.ofNat 128)) = (128, 128, 128)
          by simp only [storedBytes, storedByte, toUint8Clamp_natCast 128 (by norm_num)])
    have h2 : intensity integralPow (Number.fin 2) (Number.ofNat 5) (Number.fin 0) =
        Number.fin 128 := by
      rw [hlin]
      simpa [Number.ofNat] using t2
    rw [processImage_single]
    simp only [pixelColour, quantIndex_191, calculateGrayValue, if_true, h2, h128]

end GrayscaleViewer
